import Mathlib

/-!
Verification of the in-memory vector similarity search core
(`Embedding`, `VectorizedList`, `TopNCollection`).

The TypeScript source is embedded shallowly:
* machine floats (`number` scores) are modelled as rationals `ℚ`,
  which faithfully captures every order comparison the code performs
  on non-NaN values;
* `Number.MIN_VALUE` (the smallest positive double, `2^-1074`) is the
  rational `1 / 2^1074` — the only facts the code relies on are that it
  is positive and smaller than every score the callers use;
* the `Float32Array` payload of `Embedding` and the vector kernels of
  the separate `vectormath` module (not part of the sources at hand)
  are kept abstract: a type parameter together with explicit function
  parameters for `normalize32` / similarity;
* JavaScript arrays become `List`s; the in-place index assignments of
  the heap code become `List.set`.  All reads the source performs are
  in bounds (established by the invariants proved below), so the
  `getD` default value is never observable;
* code that can `throw` (`removeTop`, and `sortDescending` which calls
  it) is modelled in `Except Unit`.
-/

/-- `Number.MIN_VALUE`: the smallest positive double, `1 / 2 ^ 1074`
(written as a normalized numerator/denominator pair so that kernel
evaluation of comparisons involving it is direct). -/
def numberMinValue : ℚ := ⟨1, 2 ^ 1074, by positivity, Nat.coprime_one_left _⟩

/-- `IScoredValue<T>`: an optional payload together with a score.
The `value` is optional because the heap sentinel stores `undefined`. -/
structure ScoredValue (T : Type) where
  value : Option T
  score : ℚ
deriving DecidableEq

/-- Default used for out-of-range list reads; never observable, all
reads performed by the translated code are proved in bounds. -/
def svDefault (T : Type) : ScoredValue T := ⟨none, 0⟩

/-- Read slot `i` of the backing array (JS `arr[i]`). -/
def gt {T : Type} (items : List (ScoredValue T)) (i : ℕ) : ScoredValue T :=
  items.getD i (svDefault T)

/-- Score stored at slot `i`. -/
def sc {T : Type} (items : List (ScoredValue T)) (i : ℕ) : ℚ :=
  (gt items i).score

/-- `TopNCollection<T>`: bounded min-heap keyed by score, 1-indexed
with a sentinel at slot 0. -/
structure TopNCollection (T : Type) where
  _items : List (ScoredValue T)
  _count : ℕ
  _maxCount : ℕ
deriving DecidableEq

namespace TopNCollection

variable {T : Type}

/-- The constructor body (after `Validator.greaterThan(maxCount, 0)`,
i.e. for `maxCount ≥ 1`): empty occupancy, sentinel pushed at slot 0. -/
def new (T : Type) (maxCount : ℕ) : TopNCollection T :=
  { _items := [⟨none, numberMinValue⟩], _count := 0, _maxCount := maxCount }

/-- `get count()`. -/
def count (c : TopNCollection T) : ℕ := c._count

/-- `get(index)`: `this._items[index + 1]`, `none` when out of range. -/
def get (c : TopNCollection T) (index : ℕ) : Option (ScoredValue T) :=
  c._items.get? (index + 1)

/-- `get top()`: `this._items[1]`. -/
def top (c : TopNCollection T) : ScoredValue T := gt c._items 1

/-- The `upHeap` while-loop.  `fuel` bounds the iteration count; the
position strictly decreases along the parent chain, so `fuel = startAt`
never runs out, and the out-of-fuel branch coincides with the loop
exit (`this._items[i] = item`). -/
def upHeapLoop : ℕ → List (ScoredValue T) → ScoredValue T → ℕ → List (ScoredValue T)
  | 0, items, item, i => items.set i item
  | fuel + 1, items, item, i =>
    let parent := i / 2
    if 0 < parent ∧ item.score < sc items parent then
      upHeapLoop fuel (items.set i (gt items parent)) item parent
    else
      items.set i item

/-- `upHeap(startAt)`. -/
def upHeap (c : TopNCollection T) (startAt : ℕ) : TopNCollection T :=
  { c with _items := upHeapLoop startAt c._items (gt c._items startAt) startAt }

/-- The `downHeap` while-loop.  `fuel` bounds the iteration count; the
position strictly increases towards `count`, so `fuel = count` never
runs out when starting at position 1, and the out-of-fuel branch
coincides with the loop exit. -/
def downHeapLoop : ℕ → ℕ → List (ScoredValue T) → ScoredValue T → ℕ → List (ScoredValue T)
  | 0, _, items, item, i => items.set i item
  | fuel + 1, cnt, items, item, i =>
    let maxParent := cnt / 2
    if i ≤ maxParent then
      let iChild0 := i + i
      let iChild :=
        if iChild0 < cnt ∧ sc items (iChild0 + 1) < sc items iChild0
        then iChild0 + 1 else iChild0
      if item.score ≤ sc items iChild then
        items.set i item
      else
        downHeapLoop fuel cnt (items.set i (gt items iChild)) item iChild
    else
      items.set i item

/-- `downHeap(startAt)` (reads `this._count` for the window). -/
def downHeap (c : TopNCollection T) (startAt : ℕ) : TopNCollection T :=
  { c with
    _items := downHeapLoop c._count c._count c._items (gt c._items startAt) startAt }

/-- Body of `removeTop` after the emptiness check: take `items[1]`,
move the last occupied slot to the root, decrement, sift down. -/
def removeTopAux (c : TopNCollection T) : ScoredValue T × TopNCollection T :=
  let item := gt c._items 1
  let c1 : TopNCollection T :=
    { c with _items := c._items.set 1 (gt c._items c._count), _count := c._count - 1 }
  (item, downHeap c1 1)

/-- `removeTop()`: throws `ArgumentException('Empty queue')` when
`_count === 0`. -/
def removeTop (c : TopNCollection T) : Except Unit (ScoredValue T × TopNCollection T) :=
  if c._count = 0 then .error () else .ok (removeTopAux c)

/-- `add(value, score)`.  At capacity, scores strictly below the
current minimum are rejected; otherwise the minimum is evicted and the
new pair installed at the vacated logical end, then sifted up.  (The
capacity branch calls `removeTop` on a non-empty heap —
`maxCount ≥ 1` after construction — so the total core is used.) -/
def add (c : TopNCollection T) (value : T) (score : ℚ) : TopNCollection T :=
  if c._count = c._maxCount then
    if score < (top c).score then c
    else
      let c1 := (removeTopAux c).2
      let c2 : TopNCollection T := { c1 with _count := c1._count + 1 }
      let c3 : TopNCollection T :=
        { c2 with _items := c2._items.set c2._count ⟨some value, score⟩ }
      upHeap c3 c3._count
  else
    let c2 : TopNCollection T :=
      { c with _count := c._count + 1, _items := c._items ++ [⟨some value, score⟩] }
    upHeap c2 c2._count

/-- `clear()`: `this._items.length = 1` — truncates the backing array
to the sentinel.  (Note: the source does not touch `_count`.) -/
def clear (c : TopNCollection T) : TopNCollection T :=
  { c with _items := c._items.take 1 }

/-- The `sortDescending` while-loop, in the `Except` monad because the
body calls `removeTop` (the loop guard `_count > 0` keeps it from
throwing).  `fuel` bounds iterations; `_count` strictly decreases, so
`fuel = _count` at the call site never runs out, and the out-of-fuel
branch coincides with the loop exit. -/
def sortLoop : ℕ → TopNCollection T → ℕ → Except Unit (TopNCollection T)
  | 0, c, _ => .ok c
  | fuel + 1, c, i =>
    if 0 < c._count then
      match removeTop c with
      | .error e => .error e
      | .ok (item, c1) =>
        sortLoop fuel { c1 with _items := c1._items.set i item } (i - 1)
    else .ok c

/-- `sortDescending()`: heap-sort in place, then restore `_count`. -/
def sortDescending (c : TopNCollection T) : Except Unit (TopNCollection T) :=
  (sortLoop c._count c c._count).map fun c' => { c' with _count := c._count }

/-- Run a whole stream of `add` calls. -/
def addAll (c : TopNCollection T) (L : List (T × ℚ)) : TopNCollection T :=
  L.foldl (fun c p => add c p.1 p.2) c

end TopNCollection

/-- `Embedding`: a fixed float vector (kept abstract as `V` — the
numeric kernels live in the separate `vectormath` module) plus the
`_normalized` flag. -/
structure Embedding (V : Type) where
  data : V
  _normalized : Bool
deriving DecidableEq

namespace Embedding

variable {V : Type}

/-- `get isNormalized()`. -/
def isNormalized (e : Embedding V) : Bool := e._normalized

/-- `normalize()`: in-place normalization guarded by the flag;
`normalize32` is the kernel from `vectormath`, kept abstract. -/
def normalize (normalize32 : V → V) (e : Embedding V) : Embedding V :=
  if e._normalized then e else { data := normalize32 e.data, _normalized := true }

/-- `euclideanLength()`: cached fast path returns `1.0` exactly when
normalized; otherwise delegates to the `vectormath` kernel. -/
def euclideanLength (euclideanLength32 : V → ℚ) (e : Embedding V) : ℚ :=
  if e._normalized then 1 else euclideanLength32 e.data

end Embedding

/-- `VectorizedList<T>`: parallel item / embedding storage.  The
embedding type `E` is abstract; the similarity kernel is passed in
explicitly (it lives in `vectormath` / on `Embedding`). -/
structure VectorizedList (T E : Type) where
  _items : List T
  _embeddings : List E
deriving DecidableEq

namespace VectorizedList

variable {T E : Type}

/-- One step of the `nearest` scan: state is
`(bestScore, iNearest, i)` with `iNearest : ℤ` initialized to `-1`. -/
def nearestStep (simf : E → ℚ) (acc : ℚ × ℤ × ℕ) (e : E) : ℚ × ℤ × ℕ :=
  let score := simf e
  if acc.1 ≤ score then (score, (acc.2.2 : ℤ), acc.2.2 + 1)
  else (acc.1, acc.2.1, acc.2.2 + 1)

/-- `nearest(other)`: linear scan with `score >= bestScore` update,
`bestScore` initialized to `Number.MIN_VALUE`, index to `-1`; the
final `this._items[iNearest]` is `none` for `-1` (JS `undefined`). -/
def nearest (sim : E → E → ℚ) (l : VectorizedList T E) (other : E) : Option T :=
  let st := l._embeddings.foldl (nearestStep (sim · other)) (numberMinValue, -1, 0)
  if st.2.1 < 0 then none else l._items.get? st.2.1.toNat

/-- `search(other, matches, minScore)`: feed every stored pair with
`score >= minScore` into the accumulator collection. -/
def search (sim : E → E → ℚ) (l : VectorizedList T E) (other : E)
    (matches' : TopNCollection T) (minScore : ℚ) : TopNCollection T :=
  (l._items.zip l._embeddings).foldl
    (fun m p => if minScore ≤ sim p.2 other then m.add p.1 (sim p.2 other) else m)
    matches'

/-- `searchTopN(other, topNCount, minScore)`. -/
def searchTopN (sim : E → E → ℚ) (l : VectorizedList T E) (other : E)
    (topNCount : ℕ) (minScore : ℚ) : TopNCollection T :=
  search sim l other (TopNCollection.new T topNCount) minScore

end VectorizedList

/-! ### List index bookkeeping

Small lemmas about `getD` / `set` / append, phrased through `gt` and
`sc`, the two accessors the heap code uses. -/

section ListLemmas

variable {T : Type}

theorem gt_set_self (items : List (ScoredValue T)) (i : ℕ) (v : ScoredValue T)
    (h : i < items.length) : gt (items.set i v) i = v := by
  simp [gt, List.getD_eq_getElem?_getD, List.getElem?_set_self', List.getElem?_eq_getElem h]

theorem gt_set_ne (items : List (ScoredValue T)) {i j : ℕ} (v : ScoredValue T)
    (h : i ≠ j) : gt (items.set i v) j = gt items j := by
  simp [gt, List.getD_eq_getElem?_getD, List.getElem?_set_ne h]

theorem sc_set_self (items : List (ScoredValue T)) (i : ℕ) (v : ScoredValue T)
    (h : i < items.length) : sc (items.set i v) i = v.score := by
  simp [sc, gt_set_self _ _ _ h]

theorem sc_set_ne (items : List (ScoredValue T)) {i j : ℕ} (v : ScoredValue T)
    (h : i ≠ j) : sc (items.set i v) j = sc items j := by
  simp [sc, gt_set_ne _ _ h]

theorem set_gt_self (items : List (ScoredValue T)) (i : ℕ)
    (h : i < items.length) : items.set i (gt items i) = items := by
  apply List.ext_getElem?
  intro n
  by_cases hn : i = n
  · subst hn
    simp [gt, List.getElem?_set_self', List.getElem?_eq_getElem h,
      List.getD_eq_getElem?_getD]
  · simp [List.getElem?_set_ne hn]

theorem gt_append_left (items : List (ScoredValue T)) (x : ScoredValue T) {j : ℕ}
    (h : j < items.length) : gt (items ++ [x]) j = gt items j := by
  simp [gt, List.getD_eq_getElem?_getD, List.getElem?_append_left h]

theorem gt_append_len (items : List (ScoredValue T)) (x : ScoredValue T) :
    gt (items ++ [x]) items.length = x := by
  simp [gt, List.getD_eq_getElem?_getD]

theorem get?_eq_some_gt (items : List (ScoredValue T)) {k : ℕ}
    (h : k < items.length) : items.get? k = some (gt items k) := by
  simp [gt, List.get?_eq_getElem?, List.getElem?_eq_getElem h,
    List.getD_eq_getElem?_getD]

end ListLemmas

/-! ### Loop footprint lemmas

The sift loops only write inside the occupied window `[1, count]`
(plus the start slot): lengths are preserved, the sentinel slot 0 is
never written, and `downHeap` leaves slots beyond the window alone. -/

namespace TopNCollection

variable {T : Type}

theorem upHeapLoop_length (fuel : ℕ) :
    ∀ (items : List (ScoredValue T)) (item : ScoredValue T) (i : ℕ),
    (upHeapLoop fuel items item i).length = items.length := by
  induction fuel with
  | zero => intro items item i; simp [upHeapLoop]
  | succ fuel ih =>
    intro items item i
    simp only [upHeapLoop]
    split
    · rw [ih]; simp
    · simp

theorem upHeapLoop_gt_zero (fuel : ℕ) :
    ∀ (items : List (ScoredValue T)) (item : ScoredValue T) (i : ℕ), 1 ≤ i →
    gt (upHeapLoop fuel items item i) 0 = gt items 0 := by
  induction fuel with
  | zero =>
    intro items item i hi
    simp only [upHeapLoop]
    exact gt_set_ne _ _ (by omega)
  | succ fuel ih =>
    intro items item i hi
    simp only [upHeapLoop]
    split
    · next hcond =>
      rw [ih _ _ _ hcond.1, gt_set_ne _ _ (by omega)]
    · exact gt_set_ne _ _ (by omega)

theorem downHeapLoop_length (fuel : ℕ) :
    ∀ (cnt : ℕ) (items : List (ScoredValue T)) (item : ScoredValue T) (i : ℕ),
    (downHeapLoop fuel cnt items item i).length = items.length := by
  induction fuel with
  | zero => intro cnt items item i; simp [downHeapLoop]
  | succ fuel ih =>
    intro cnt items item i
    simp only [downHeapLoop]
    split
    · split <;> split <;> first | simp | (rw [ih]; simp)
    · simp

theorem downHeapLoop_gt_zero (fuel : ℕ) :
    ∀ (cnt : ℕ) (items : List (ScoredValue T)) (item : ScoredValue T) (i : ℕ), 1 ≤ i →
    gt (downHeapLoop fuel cnt items item i) 0 = gt items 0 := by
  induction fuel with
  | zero =>
    intro cnt items item i hi
    simp only [downHeapLoop]
    exact gt_set_ne _ _ (by omega)
  | succ fuel ih =>
    intro cnt items item i hi
    simp only [downHeapLoop]
    split
    · split <;> split
      · exact gt_set_ne _ _ (by omega)
      · rw [ih _ _ _ _ (by omega), gt_set_ne _ _ (by omega)]
      · exact gt_set_ne _ _ (by omega)
      · rw [ih _ _ _ _ (by omega), gt_set_ne _ _ (by omega)]
    · exact gt_set_ne _ _ (by omega)

theorem downHeapLoop_gt_high (fuel : ℕ) :
    ∀ (cnt : ℕ) (items : List (ScoredValue T)) (item : ScoredValue T) (i : ℕ) (k : ℕ),
    cnt < k → i ≠ k →
    gt (downHeapLoop fuel cnt items item i) k = gt items k := by
  induction fuel with
  | zero =>
    intro cnt items item i k hk hik
    simp only [downHeapLoop]
    exact gt_set_ne _ _ hik
  | succ fuel ih =>
    intro cnt items item i k hk hik
    simp only [downHeapLoop]
    split
    · next hle =>
      split
      · next hch =>
        split
        · exact gt_set_ne _ _ hik
        · rw [ih _ _ _ _ _ hk (by omega), gt_set_ne _ _ hik]
      · next hch =>
        split
        · exact gt_set_ne _ _ hik
        · rw [ih _ _ _ _ _ hk (by omega), gt_set_ne _ _ hik]
    · exact gt_set_ne _ _ hik

end TopNCollection

/-! ### The heap invariant and the occupancy multiset -/

/-- Binary min-heap property over the occupied window `[1, n]` of the
1-indexed backing array: every slot's score is at least its parent's. -/
def heapUpTo {T : Type} (items : List (ScoredValue T)) (n : ℕ) : Prop :=
  ∀ j, 2 ≤ j → j ≤ n → sc items (j / 2) ≤ sc items j

/-- The list of values stored at slots `a, a+1, …, a+n-1`. -/
def segL {T : Type} (items : List (ScoredValue T)) (a n : ℕ) : List (ScoredValue T) :=
  (List.range n).map fun k => gt items (a + k)

/-- The multiset of values occupying slots `[1, n]`. -/
def occ {T : Type} (items : List (ScoredValue T)) (n : ℕ) : Multiset (ScoredValue T) :=
  (segL items 1 n : List (ScoredValue T))

section SegLemmas

variable {T : Type}

theorem segL_congr {items items' : List (ScoredValue T)} {a n : ℕ}
    (h : ∀ k, a ≤ k → k < a + n → gt items k = gt items' k) :
    segL items a n = segL items' a n := by
  unfold segL
  exact List.map_congr_left fun k hk =>
    h _ (Nat.le_add_right _ _) (by have := List.mem_range.mp hk; omega)

theorem segL_zero (items : List (ScoredValue T)) (a : ℕ) : segL items a 0 = [] := rfl

theorem segL_succ_front (items : List (ScoredValue T)) (a n : ℕ) :
    segL items a (n + 1) = gt items a :: segL items (a + 1) n := by
  unfold segL
  rw [List.range_succ_eq_map, List.map_cons, List.map_map]
  simp only [Nat.add_zero]
  congr 1
  apply List.map_congr_left
  intro k _
  simp only [Function.comp_apply]
  congr 1
  omega

theorem segL_succ_back (items : List (ScoredValue T)) (a n : ℕ) :
    segL items a (n + 1) = segL items a n ++ [gt items (a + n)] := by
  unfold segL
  rw [List.range_succ, List.map_append, List.map_singleton]

theorem occ_congr {items items' : List (ScoredValue T)} {n : ℕ}
    (h : ∀ k, 1 ≤ k → k ≤ n → gt items k = gt items' k) :
    occ items n = occ items' n := by
  unfold occ
  rw [segL_congr fun k hk hk' => h k hk (by omega)]

theorem occ_zero (items : List (ScoredValue T)) : occ items 0 = 0 := rfl

theorem occ_succ (items : List (ScoredValue T)) (n : ℕ) :
    occ items (n + 1) = gt items (1 + n) ::ₘ occ items n := by
  unfold occ
  rw [segL_succ_back]
  rw [show ((segL items 1 n ++ [gt items (1 + n)] : List (ScoredValue T)) : Multiset (ScoredValue T))
      = (segL items 1 n : List (ScoredValue T)) + ([gt items (1 + n)] : List (ScoredValue T))
    from Multiset.coe_add _ _ ▸ rfl]
  rw [add_comm]
  rfl

theorem mem_occ {items : List (ScoredValue T)} {n : ℕ} {x : ScoredValue T} :
    x ∈ occ items n ↔ ∃ k, 1 ≤ k ∧ k ≤ n ∧ gt items k = x := by
  unfold occ segL
  rw [Multiset.mem_coe, List.mem_map]
  constructor
  · rintro ⟨k, hk, rfl⟩
    exact ⟨1 + k, by omega, by have := List.mem_range.mp hk; omega, rfl⟩
  · rintro ⟨k, hk1, hkn, rfl⟩
    exact ⟨k - 1, List.mem_range.mpr (by omega), by congr 1; omega⟩

theorem occ_eq_range_map (items : List (ScoredValue T)) (n : ℕ) :
    occ items n = (Multiset.range n).map fun k => gt items (1 + k) := by
  unfold occ segL
  rfl

/-- Swapping the images of two indices of `range n` leaves the mapped
multiset unchanged. -/
theorem map_range_swap {α : Type} (f g : ℕ → α) (n a b : ℕ)
    (ha : a < n) (hb : b < n) (hab : a ≠ b)
    (hfa : f a = g b) (hfb : f b = g a)
    (h : ∀ k, k < n → k ≠ a → k ≠ b → f k = g k) :
    (Multiset.range n).map f = (Multiset.range n).map g := by
  have haM : a ∈ Multiset.range n := Multiset.mem_range.mpr ha
  have hbM : b ∈ (Multiset.range n).erase a := by
    rw [Multiset.mem_erase_of_ne hab.symm]
    exact Multiset.mem_range.mpr hb
  have hrest : ∀ k ∈ ((Multiset.range n).erase a).erase b, f k = g k := by
    intro k hk
    have hnd : ((Multiset.range n).erase a).Nodup :=
      (Multiset.nodup_range n).erase a
    have hkb : k ≠ b ∧ k ∈ (Multiset.range n).erase a :=
      (Multiset.Nodup.mem_erase_iff hnd).mp hk
    have hka : k ≠ a ∧ k ∈ Multiset.range n :=
      (Multiset.Nodup.mem_erase_iff (Multiset.nodup_range n)).mp hkb.2
    exact h k (Multiset.mem_range.mp hka.2) hka.1 hkb.1
  calc (Multiset.range n).map f
      = (a ::ₘ (Multiset.range n).erase a).map f := by rw [Multiset.cons_erase haM]
    _ = f a ::ₘ ((Multiset.range n).erase a).map f := Multiset.map_cons _ _ _
    _ = f a ::ₘ (b ::ₘ ((Multiset.range n).erase a).erase b).map f := by
        rw [Multiset.cons_erase hbM]
    _ = f a ::ₘ f b ::ₘ (((Multiset.range n).erase a).erase b).map f := by
        rw [Multiset.map_cons]
    _ = g b ::ₘ g a ::ₘ (((Multiset.range n).erase a).erase b).map g := by
        rw [hfa, hfb, Multiset.map_congr rfl hrest]
    _ = g a ::ₘ g b ::ₘ (((Multiset.range n).erase a).erase b).map g :=
        Multiset.cons_swap _ _ _
    _ = g a ::ₘ (b ::ₘ ((Multiset.range n).erase a).erase b).map g := by
        rw [Multiset.map_cons]
    _ = g a ::ₘ ((Multiset.range n).erase a).map g := by rw [Multiset.cons_erase hbM]
    _ = (a ::ₘ (Multiset.range n).erase a).map g := (Multiset.map_cons _ _ _).symm
    _ = (Multiset.range n).map g := by rw [Multiset.cons_erase haM]

/-- `occ` is unchanged when two in-window slots trade their contents. -/
theorem occ_swap (items : List (ScoredValue T)) {n i p : ℕ}
    (x y : ScoredValue T)
    (hi1 : 1 ≤ i) (hin : i ≤ n) (hp1 : 1 ≤ p) (hpn : p ≤ n) (hip : i ≠ p)
    (hilen : i < items.length) (hplen : p < items.length) :
    occ ((items.set i x).set p y) n = occ ((items.set i y).set p x) n := by
  rw [occ_eq_range_map, occ_eq_range_map]
  apply map_range_swap _ _ n (i - 1) (p - 1) (by omega) (by omega) (by omega)
  · rw [show 1 + (i - 1) = i by omega, show 1 + (p - 1) = p by omega,
      gt_set_ne _ _ (by omega : p ≠ i), gt_set_self _ _ _ hilen,
      gt_set_self _ _ _ (by simpa using hplen)]
  · rw [show 1 + (p - 1) = p by omega, show 1 + (i - 1) = i by omega,
      gt_set_self _ _ _ (by simpa using hplen),
      gt_set_ne _ _ (by omega : p ≠ i), gt_set_self _ _ _ hilen]
  · intro k _ hka hkb
    rw [gt_set_ne _ _ (by omega), gt_set_ne _ _ (by omega),
      gt_set_ne _ _ (by omega), gt_set_ne _ _ (by omega)]

end SegLemmas

/-! ### Correctness of the sift loops -/

namespace TopNCollection

variable {T : Type}

theorem upHeapLoop_occ (n fuel : ℕ) : ∀ (items : List (ScoredValue T))
    (item : ScoredValue T) (i : ℕ), 1 ≤ i → i ≤ n → n < items.length →
    occ (upHeapLoop fuel items item i) n = occ (items.set i item) n := by
  induction fuel with
  | zero => intro items item i _ _ _; rfl
  | succ fuel ih =>
    intro items item i hi1 hin hlen
    simp only [upHeapLoop]
    split
    · next hcond =>
      obtain ⟨hp1, hlt⟩ := hcond
      have hilen : i < items.length := by omega
      have hplen : i / 2 < items.length := by omega
      rw [ih _ _ _ hp1 (by omega) (by simpa using hlen)]
      rw [occ_swap _ _ _ (by omega) (by omega) hp1 (by omega) (by omega) hilen hplen]
      rw [show gt items (i / 2) = gt (items.set i item) (i / 2) from
        (gt_set_ne _ _ (by omega : i ≠ i / 2)).symm]
      rw [set_gt_self _ _ (by simpa using hplen)]
    · rfl

theorem upHeapLoop_heap (n fuel : ℕ) : ∀ (items : List (ScoredValue T))
    (item : ScoredValue T) (i : ℕ),
    1 ≤ i → i ≤ n → i ≤ fuel → n < items.length →
    (∀ j, 2 ≤ j → j ≤ n → j ≠ i →
      sc (items.set i item) (j / 2) ≤ sc (items.set i item) j) →
    (∀ j, 2 ≤ j → j ≤ n → j / 2 = i → 2 ≤ i →
      sc (items.set i item) (i / 2) ≤ sc (items.set i item) j) →
    heapUpTo (upHeapLoop fuel items item i) n := by
  induction fuel with
  | zero => intro items item i hi1 _ hif _ _ _; exfalso; omega
  | succ fuel ih =>
    intro items item i hi1 hin hif hlen inv1 inv2
    have hilen : i < items.length := by omega
    have hAi : sc (items.set i item) i = item.score := sc_set_self _ _ _ hilen
    have hAo : ∀ k, k ≠ i → sc (items.set i item) k = sc items k :=
      fun k hk => sc_set_ne _ _ hk.symm
    simp only [upHeapLoop]
    split
    · next hcond =>
      obtain ⟨hp1, hlt⟩ := hcond
      have hi2 : 2 ≤ i := by omega
      have hpi : i / 2 ≠ i := by omega
      have hplen : i / 2 < items.length := by omega
      -- pointwise values of the next virtual array
      have hApi : sc ((items.set i (gt items (i / 2))).set (i / 2) item) (i / 2)
          = item.score := sc_set_self _ _ _ (by simpa using hplen)
      have hAii : sc ((items.set i (gt items (i / 2))).set (i / 2) item) i
          = sc items (i / 2) := by
        rw [sc_set_ne _ _ hpi, sc_set_self _ _ _ hilen, sc]
      have hAk : ∀ k, k ≠ i → k ≠ i / 2 →
          sc ((items.set i (gt items (i / 2))).set (i / 2) item) k = sc items k := by
        intro k hki hkp
        rw [sc_set_ne _ _ hkp.symm, sc_set_ne _ _ hki.symm]
      apply ih _ item (i / 2) hp1 (by omega) (by omega) (by simpa using hlen)
      · -- inv1 for the parent position
        intro j hj2 hjn hjp
        by_cases hji : j = i
        · subst hji
          rw [show j / 2 = j / 2 from rfl] -- keep structure
          rw [hApi, hAii]
          exact le_of_lt hlt
        · by_cases hj2i : j / 2 = i
          · rw [hj2i, hAii, hAk j hji hjp]
            have h0 := inv2 j hj2 hjn hj2i hi2
            rwa [hAo _ hpi, hAo j hji] at h0
          · by_cases hj2p : j / 2 = i / 2
            · rw [hj2p, hApi, hAk j hji hjp]
              have h0 := inv1 j hj2 hjn hji
              rw [hAo _ (hj2p ▸ hpi), hAo j hji, hj2p] at h0
              exact le_of_lt (lt_of_lt_of_le hlt h0)
            · rw [hAk _ hj2i hj2p, hAk j hji hjp]
              have h0 := inv1 j hj2 hjn hji
              rwa [hAo _ hj2i, hAo j hji] at h0
      · -- inv2 for the parent position
        intro j hj2 hjn hj2p h2p
        have hpp : i / 2 / 2 ≠ i := by omega
        have hppp : i / 2 / 2 ≠ i / 2 := by omega
        rw [hAk _ hpp hppp]
        have hbase : sc items (i / 2 / 2) ≤ sc items (i / 2) := by
          have h0 := inv1 (i / 2) h2p (by omega) hpi
          rwa [hAo _ hpp, hAo _ hpi] at h0
        by_cases hji : j = i
        · subst hji; rw [hAii]; exact hbase
        · have hjp : j ≠ i / 2 := by omega
          rw [hAk j hji hjp]
          have h1 := inv1 j hj2 hjn hji
          rw [hAo _ (by omega : j / 2 ≠ i), hAo j hji] at h1
          calc sc items (i / 2 / 2) ≤ sc items (i / 2) := hbase
            _ = sc items (j / 2) := by rw [hj2p]
            _ ≤ sc items j := h1
    · next hcond =>
      intro j hj2 hjn
      by_cases hji : j = i
      · subst hji
        have hple : sc items (j / 2) ≤ item.score :=
          le_of_not_lt fun hlt => hcond ⟨by omega, hlt⟩
        rw [hAo _ (by omega : j / 2 ≠ j), hAi]
        exact hple
      · exact inv1 j hj2 hjn hji

end TopNCollection

namespace TopNCollection

variable {T : Type}

theorem downHeapLoop_occ (cnt n fuel : ℕ) : ∀ (items : List (ScoredValue T))
    (item : ScoredValue T) (i : ℕ), 1 ≤ i → i ≤ n → cnt ≤ n → n < items.length →
    occ (downHeapLoop fuel cnt items item i) n = occ (items.set i item) n := by
  induction fuel with
  | zero => intro items item i _ _ _ _; rfl
  | succ fuel ih =>
    intro items item i hi1 hin hcn hlen
    simp only [downHeapLoop]
    split
    · next hle =>
      split
      · next hch =>
        obtain ⟨hch1, _⟩ := hch
        split
        · rfl
        · rw [ih _ _ _ (by omega) (by omega) hcn (by simpa using hlen)]
          rw [occ_swap _ _ _ hi1 hin (by omega) (by omega) (by omega)
            (by omega) (by omega)]
          rw [show gt items (i + i + 1) = gt (items.set i item) (i + i + 1) from
            (gt_set_ne _ _ (by omega)).symm]
          rw [set_gt_self _ _ (by simpa using (show i + i + 1 < items.length by omega))]
      · next hch =>
        split
        · rfl
        · rw [ih _ _ _ (by omega) (by omega) hcn (by simpa using hlen)]
          rw [occ_swap _ _ _ hi1 hin (by omega) (by omega) (by omega)
            (by omega) (by omega)]
          rw [show gt items (i + i) = gt (items.set i item) (i + i) from
            (gt_set_ne _ _ (by omega)).symm]
          rw [set_gt_self _ _ (by simpa using (show i + i < items.length by omega))]
    · rfl

/-- Writing `item` into slot `i` yields a heap provided all other
edges already hold and `item` is below everything whose parent is `i`. -/
theorem heap_of_set (cnt : ℕ) (items : List (ScoredValue T)) (item : ScoredValue T)
    (i : ℕ) (hilen : i < items.length)
    (inv1 : ∀ j, 2 ≤ j → j ≤ cnt → j / 2 ≠ i →
      sc (items.set i item) (j / 2) ≤ sc (items.set i item) j)
    (hord : ∀ j, 2 ≤ j → j ≤ cnt → j / 2 = i → item.score ≤ sc items j) :
    heapUpTo (items.set i item) cnt := by
  intro j hj2 hjcnt
  by_cases hji : j / 2 = i
  · have hjne : j ≠ i := by omega
    rw [hji, sc_set_self _ _ _ hilen, sc_set_ne _ _ hjne.symm]
    exact hord j hj2 hjcnt hji
  · exact inv1 j hj2 hjcnt hji

/-- The descend step of `downHeap`: swapping the hole with its chosen
child preserves the loop invariants. -/
theorem downHeapLoop_heap_step (cnt fuel : ℕ)
    (ih : ∀ (items : List (ScoredValue T)) (item : ScoredValue T) (i : ℕ),
      1 ≤ i → cnt ≤ fuel + i → cnt < items.length → i < items.length →
      (∀ j, 2 ≤ j → j ≤ cnt → j / 2 ≠ i →
        sc (items.set i item) (j / 2) ≤ sc (items.set i item) j) →
      (∀ j, 2 ≤ j → j ≤ cnt → j / 2 = i → 2 ≤ i →
        sc (items.set i item) (i / 2) ≤ sc (items.set i item) j) →
      heapUpTo (downHeapLoop fuel cnt items item i) cnt)
    (items : List (ScoredValue T)) (item : ScoredValue T) (i c : ℕ)
    (hi1 : 1 ≤ i) (hic : i < c) (hc2 : c / 2 = i) (hccnt : c ≤ cnt)
    (hfuel : cnt ≤ fuel + c)
    (hcntlen : cnt < items.length) (hilen : i < items.length)
    (inv1 : ∀ j, 2 ≤ j → j ≤ cnt → j / 2 ≠ i →
      sc (items.set i item) (j / 2) ≤ sc (items.set i item) j)
    (inv2 : ∀ j, 2 ≤ j → j ≤ cnt → j / 2 = i → 2 ≤ i →
      sc (items.set i item) (i / 2) ≤ sc (items.set i item) j)
    (hmin : ∀ j, 2 ≤ j → j ≤ cnt → j / 2 = i → sc items c ≤ sc items j)
    (hpark : sc items c < item.score) :
    heapUpTo (downHeapLoop fuel cnt (items.set i (gt items c)) item c) cnt := by
  have hclen : c < items.length := by omega
  have hcne : c ≠ i := by omega
  have hA'c : sc ((items.set i (gt items c)).set c item) c = item.score :=
    sc_set_self _ _ _ (by simpa using hclen)
  have hA'i : sc ((items.set i (gt items c)).set c item) i = sc items c := by
    rw [sc_set_ne _ _ hcne, sc_set_self _ _ _ hilen, sc]
  have hA'k : ∀ k, k ≠ i → k ≠ c →
      sc ((items.set i (gt items c)).set c item) k = sc items k := by
    intro k hki hkc
    rw [sc_set_ne _ _ hkc.symm, sc_set_ne _ _ hki.symm]
  have hAo : ∀ k, k ≠ i → sc (items.set i item) k = sc items k :=
    fun k hk => sc_set_ne _ _ hk.symm
  apply ih _ item c (by omega) (by omega) (by simpa using hcntlen) (by simpa using hclen)
  · intro j hj2 hjcnt hj2c
    by_cases hji : j = i
    · subst hji
      rw [hA'k (j / 2) (by omega) (by omega), hA'i]
      have h0 := inv2 c (by omega) hccnt hc2 hj2
      rwa [hAo _ (by omega : j / 2 ≠ j), hAo c hcne] at h0
    · by_cases hjc : j = c
      · subst hjc
        rw [hc2, hA'i, hA'c]
        exact le_of_lt hpark
      · by_cases hj2i : j / 2 = i
        · rw [hj2i, hA'i, hA'k j hji hjc]
          exact hmin j hj2 hjcnt hj2i
        · rw [hA'k _ hj2i hj2c, hA'k j hji hjc]
          have h0 := inv1 j hj2 hjcnt hj2i
          rwa [hAo _ hj2i, hAo j hji] at h0
  · intro j hj2 hjcnt hj2c h2c
    rw [hc2]
    have hjne : j ≠ i := by omega
    have hjnc : j ≠ c := by omega
    rw [hA'i, hA'k j hjne hjnc]
    have h0 := inv1 j hj2 hjcnt (by omega : j / 2 ≠ i)
    rw [hAo _ (by omega : j / 2 ≠ i), hAo j hjne] at h0
    calc sc items c = sc items (j / 2) := by rw [hj2c]
      _ ≤ sc items j := h0

theorem downHeapLoop_heap (cnt fuel : ℕ) : ∀ (items : List (ScoredValue T))
    (item : ScoredValue T) (i : ℕ),
    1 ≤ i → cnt ≤ fuel + i → cnt < items.length → i < items.length →
    (∀ j, 2 ≤ j → j ≤ cnt → j / 2 ≠ i →
      sc (items.set i item) (j / 2) ≤ sc (items.set i item) j) →
    (∀ j, 2 ≤ j → j ≤ cnt → j / 2 = i → 2 ≤ i →
      sc (items.set i item) (i / 2) ≤ sc (items.set i item) j) →
    heapUpTo (downHeapLoop fuel cnt items item i) cnt := by
  induction fuel with
  | zero =>
    intro items item i hi1 hfuel _ hilen inv1 inv2
    simp only [downHeapLoop]
    apply heap_of_set cnt items item i hilen inv1
    intro j hj2 hjcnt hji
    exfalso; omega
  | succ fuel ih =>
    intro items item i hi1 hfuel hcntlen hilen inv1 inv2
    simp only [downHeapLoop]
    split
    · next hle =>
      split
      · next hch =>
        obtain ⟨hch1, hch2⟩ := hch
        have hmin : ∀ j, 2 ≤ j → j ≤ cnt → j / 2 = i →
            sc items (i + i + 1) ≤ sc items j := by
          intro j hj2 hjcnt hji
          have hj : j = i + i ∨ j = i + i + 1 := by omega
          rcases hj with hj | hj
          · rw [hj]; exact le_of_lt hch2
          · rw [hj]
        split
        · next hpark =>
          apply heap_of_set cnt items item i hilen inv1
          intro j hj2 hjcnt hji
          exact le_trans hpark (hmin j hj2 hjcnt hji)
        · next hpark =>
          exact downHeapLoop_heap_step cnt fuel ih items item i (i + i + 1) hi1
            (by omega) (by omega) (by omega) (by omega) hcntlen hilen inv1 inv2 hmin
            (not_le.mp hpark)
      · next hch =>
        have hch' : ¬(i + i < cnt) ∨ ¬(sc items (i + i + 1) < sc items (i + i)) :=
          not_and_or.mp hch
        have hmin : ∀ j, 2 ≤ j → j ≤ cnt → j / 2 = i →
            sc items (i + i) ≤ sc items j := by
          intro j hj2 hjcnt hji
          have hj : j = i + i ∨ j = i + i + 1 := by omega
          rcases hj with hj | hj
          · rw [hj]
          · rcases hch' with h | h
            · exfalso; omega
            · rw [hj]; exact le_of_not_lt h
        split
        · next hpark =>
          apply heap_of_set cnt items item i hilen inv1
          intro j hj2 hjcnt hji
          exact le_trans hpark (hmin j hj2 hjcnt hji)
        · next hpark =>
          exact downHeapLoop_heap_step cnt fuel ih items item i (i + i) hi1
            (by omega) (by omega) (by omega) (by omega) hcntlen hilen inv1 inv2 hmin
            (not_le.mp hpark)
    · next hgt =>
      apply heap_of_set cnt items item i hilen inv1
      intro j hj2 hjcnt hji
      exfalso; omega

end TopNCollection

/-! ### `removeTop` -/

namespace TopNCollection

variable {T : Type}

theorem removeTopAux_count (c : TopNCollection T) :
    (removeTopAux c).2._count = c._count - 1 := rfl

theorem removeTopAux_maxCount (c : TopNCollection T) :
    (removeTopAux c).2._maxCount = c._maxCount := rfl

theorem removeTopAux_fst (c : TopNCollection T) : (removeTopAux c).1 = top c := rfl

theorem removeTopAux_length (c : TopNCollection T) :
    (removeTopAux c).2._items.length = c._items.length := by
  unfold removeTopAux downHeap
  simp [downHeapLoop_length]

theorem removeTopAux_gt_zero (c : TopNCollection T) :
    gt (removeTopAux c).2._items 0 = gt c._items 0 := by
  unfold removeTopAux downHeap
  simp only
  rw [downHeapLoop_gt_zero _ _ _ _ _ (le_refl 1), gt_set_ne _ _ (by omega)]

theorem removeTopAux_gt_high (c : TopNCollection T) (hcnt : 2 ≤ c._count) :
    ∀ k, c._count ≤ k → gt (removeTopAux c).2._items k = gt c._items k := by
  intro k hk
  unfold removeTopAux downHeap
  simp only
  rw [downHeapLoop_gt_high _ _ _ _ _ _ (by omega) (by omega),
    gt_set_ne _ _ (by omega)]

theorem removeTopAux_items_count_one (c : TopNCollection T) (hc : c._count = 1)
    (hlen : c._count < c._items.length) :
    (removeTopAux c).2._items = c._items := by
  unfold removeTopAux downHeap
  simp only [hc]
  rw [set_gt_self _ _ (by omega)]
  show downHeapLoop 0 0 c._items (gt c._items 1) 1 = c._items
  unfold downHeapLoop
  rw [set_gt_self _ _ (by omega)]

theorem removeTopAux_heap (c : TopNCollection T)
    (hlen : c._count < c._items.length) (hcnt : 1 ≤ c._count)
    (hheap : heapUpTo c._items c._count) :
    heapUpTo (removeTopAux c).2._items (removeTopAux c).2._count := by
  unfold removeTopAux downHeap
  simp only [removeTopAux_count]
  apply downHeapLoop_heap _ _ _ _ _ (le_refl 1) (by omega) (by simp; omega)
    (by simp; omega)
  · rw [set_gt_self _ _ (by simp; omega)]
    intro j hj2 hjc hj1
    rw [sc_set_ne _ _ (by omega : (1 : ℕ) ≠ j), sc_set_ne _ _ (by omega : (1 : ℕ) ≠ j / 2)]
    exact hheap j hj2 (by omega)
  · intro j _ _ _ h
    exact absurd h (by omega)

theorem removeTopAux_occ (c : TopNCollection T)
    (hlen : c._count < c._items.length) (hcnt : 1 ≤ c._count) :
    occ c._items c._count
      = top c ::ₘ occ (removeTopAux c).2._items (removeTopAux c).2._count := by
  rw [removeTopAux_count]
  by_cases hc1 : c._count = 1
  · rw [removeTopAux_items_count_one c hc1 hlen, hc1]
    rw [show (1 : ℕ) - 1 = 0 from rfl, occ_zero]
    rw [show (1 : ℕ) = 0 + 1 from rfl, occ_succ, occ_zero]
    rfl
  · have hc2 : 2 ≤ c._count := by omega
    -- the post-removal backing array restricted to the window
    have hstep : occ (removeTopAux c).2._items (c._count - 1)
        = occ (c._items.set 1 (gt c._items c._count)) (c._count - 1) := by
      unfold removeTopAux downHeap
      simp only
      rw [downHeapLoop_occ _ _ _ _ _ _ (le_refl 1) (by omega) (le_refl _)
        (by simp; omega)]
      rw [set_gt_self _ _ (by simp; omega)]
    rw [hstep]
    obtain ⟨m, hm⟩ : ∃ m, c._count = m + 2 := ⟨c._count - 2, by omega⟩
    -- peel the moved slot off the front of the shrunk window
    have hfront : segL (c._items.set 1 (gt c._items (m + 2))) 1 (m + 1)
        = gt c._items (m + 2) :: segL c._items 2 m := by
      rw [segL_succ_front]
      congr 1
      · exact gt_set_self _ _ _ (by omega)
      · exact segL_congr fun k hk hk' => gt_set_ne _ _ (by omega)
    -- peel the root and the last slot off the full window
    have hfull : segL c._items 1 (m + 2)
        = gt c._items 1 :: (segL c._items 2 m ++ [gt c._items (m + 2)]) := by
      rw [show m + 2 = (m + 1) + 1 from rfl, segL_succ_front, segL_succ_back,
        Nat.add_comm 2 m]
    unfold occ top
    rw [hm, show m + 2 - 1 = m + 1 from rfl, hfront, hfull, Multiset.cons_coe,
      Multiset.coe_eq_coe]
    exact List.Perm.cons _ (List.perm_append_singleton _ _)

/-- The root of a heap window holds a minimal score. -/
theorem heapUpTo_root_min {items : List (ScoredValue T)} {n : ℕ}
    (h : heapUpTo items n) : ∀ k, 1 ≤ k → k ≤ n → sc items 1 ≤ sc items k := by
  intro k
  induction k using Nat.strong_induction_on with
  | _ k ih =>
    intro hk1 hkn
    by_cases hk : k = 1
    · subst hk; exact le_refl _
    · exact le_trans (ih (k / 2) (by omega) (by omega) (by omega))
        (h k (by omega) hkn)

end TopNCollection

/-! ### `add` -/

namespace TopNCollection

variable {T : Type}

theorem sc_append_left (items : List (ScoredValue T)) (x : ScoredValue T) {j : ℕ}
    (h : j < items.length) : sc (items ++ [x]) j = sc items j := by
  simp [sc, gt_append_left _ _ h]

theorem add_eq_append (c : TopNCollection T) (v : T) (s : ℚ)
    (hne : ¬ c._count = c._maxCount) :
    add c v s
      = upHeap ⟨c._items ++ [⟨some v, s⟩], c._count + 1, c._maxCount⟩ (c._count + 1) := by
  unfold add
  rw [if_neg hne]

theorem add_eq_full (c : TopNCollection T) (v : T) (s : ℚ)
    (hfull : c._count = c._maxCount) (hs : ¬ s < (top c).score) :
    add c v s
      = upHeap ⟨(removeTopAux c).2._items.set ((removeTopAux c).2._count + 1)
            ⟨some v, s⟩, (removeTopAux c).2._count + 1, c._maxCount⟩
          ((removeTopAux c).2._count + 1) := by
  unfold add
  rw [if_pos hfull, if_neg hs]
  rfl

theorem add_reject (c : TopNCollection T) (v : T) (s : ℚ)
    (hfull : c._count = c._maxCount) (hs : s < (top c).score) :
    add c v s = c := by
  unfold add
  rw [if_pos hfull, if_pos hs]


/-- Sifting up from the logical end of a heap whose strict prefix is
heap-ordered produces a heap, preserving occupancy, length, counts and
the sentinel. -/
theorem upHeap_last_spec (items : List (ScoredValue T)) (n m : ℕ) (hn1 : 1 ≤ n)
    (hlen : items.length = n + 1)
    (hheap : heapUpTo items (n - 1)) :
    (upHeap ⟨items, n, m⟩ n)._count = n ∧
    (upHeap ⟨items, n, m⟩ n)._maxCount = m ∧
    (upHeap ⟨items, n, m⟩ n)._items.length = n + 1 ∧
    heapUpTo (upHeap ⟨items, n, m⟩ n)._items n ∧
    occ (upHeap ⟨items, n, m⟩ n)._items n = occ items n ∧
    gt (upHeap ⟨items, n, m⟩ n)._items 0 = gt items 0 := by
  refine ⟨rfl, rfl, ?_, ?_, ?_, ?_⟩
  · show (upHeapLoop n items (gt items n) n).length = n + 1
    rw [upHeapLoop_length, hlen]
  · show heapUpTo (upHeapLoop n items (gt items n) n) n
    apply upHeapLoop_heap _ _ _ _ _ hn1 (le_refl _) (le_refl _) (by omega)
    · rw [set_gt_self _ _ (by omega)]
      intro j hj2 hjn hjne
      exact hheap j hj2 (by omega)
    · intro j hj2 hjn hj2n hn2
      exfalso
      omega
  · show occ (upHeapLoop n items (gt items n) n) n = occ items n
    rw [upHeapLoop_occ _ _ _ _ _ hn1 (le_refl _) (by omega),
      set_gt_self _ _ (by omega)]
  · show gt (upHeapLoop n items (gt items n) n) 0 = gt items 0
    rw [upHeapLoop_gt_zero _ _ _ _ hn1]

theorem add_append_spec (c : TopNCollection T) (v : T) (s : ℚ)
    (hlen : c._items.length = c._count + 1)
    (hheap : heapUpTo c._items c._count)
    (hne : ¬ c._count = c._maxCount) :
    (add c v s)._count = c._count + 1 ∧
    (add c v s)._maxCount = c._maxCount ∧
    (add c v s)._items.length = c._count + 2 ∧
    heapUpTo (add c v s)._items (c._count + 1) ∧
    occ (add c v s)._items (c._count + 1) = ⟨some v, s⟩ ::ₘ occ c._items c._count ∧
    gt (add c v s)._items 0 = gt c._items 0 := by
  rw [add_eq_append c v s hne]
  obtain ⟨h1, h2, h3, h4, h5, h6⟩ :=
    upHeap_last_spec (c._items ++ [(⟨some v, s⟩ : ScoredValue T)])
      (c._count + 1) c._maxCount (by omega) (by simp [hlen])
      (by
        intro j hj2 hjn
        rw [sc_append_left _ _ (by omega), sc_append_left _ _ (by omega)]
        exact hheap j hj2 (by omega))
  refine ⟨h1, h2, by omega, h4, ?_, ?_⟩
  · rw [h5, occ_succ]
    congr 1
    · rw [Nat.add_comm 1 c._count]
      have := gt_append_len c._items (⟨some v, s⟩ : ScoredValue T)
      rwa [hlen] at this
    · exact occ_congr fun k hk1 hkn => gt_append_left _ _ (by omega)
  · rw [h6]
    exact gt_append_left _ _ (by omega)

theorem add_full_spec (c : TopNCollection T) (v : T) (s : ℚ)
    (hlen : c._items.length = c._count + 1)
    (hheap : heapUpTo c._items c._count)
    (hfull : c._count = c._maxCount) (hm : 1 ≤ c._maxCount)
    (hs : ¬ s < (top c).score) :
    (add c v s)._count = c._maxCount ∧
    (add c v s)._maxCount = c._maxCount ∧
    (add c v s)._items.length = c._maxCount + 1 ∧
    heapUpTo (add c v s)._items c._maxCount ∧
    occ c._items c._count
      = top c ::ₘ occ (removeTopAux c).2._items (c._maxCount - 1) ∧
    occ (add c v s)._items c._maxCount
      = ⟨some v, s⟩ ::ₘ occ (removeTopAux c).2._items (c._maxCount - 1) ∧
    gt (add c v s)._items 0 = gt c._items 0 := by
  have hcnt1 : 1 ≤ c._count := by omega
  have hc1cnt : (removeTopAux c).2._count = c._maxCount - 1 := by
    rw [removeTopAux_count, hfull]
  have hc1len : (removeTopAux c).2._items.length = c._maxCount + 1 := by
    rw [removeTopAux_length, hlen, hfull]
  have hc1heap : heapUpTo (removeTopAux c).2._items (c._maxCount - 1) := by
    have h0 := removeTopAux_heap c (by omega) hcnt1 hheap
    rwa [hc1cnt] at h0
  have hocc := removeTopAux_occ c (by omega) hcnt1
  rw [hc1cnt] at hocc
  rw [add_eq_full c v s hfull hs, hc1cnt,
    show c._maxCount - 1 + 1 = c._maxCount by omega]
  obtain ⟨h1, h2, h3, h4, h5, h6⟩ :=
    upHeap_last_spec
      ((removeTopAux c).2._items.set c._maxCount (⟨some v, s⟩ : ScoredValue T))
      c._maxCount c._maxCount hm (by rw [List.length_set, hc1len])
      (by
        intro j hj2 hjn
        rw [sc_set_ne _ _ (by omega : c._maxCount ≠ j),
          sc_set_ne _ _ (by omega : c._maxCount ≠ j / 2)]
        exact hc1heap j hj2 hjn)
  refine ⟨h1, h2, h3, h4, hocc, ?_, ?_⟩
  · obtain ⟨mm, hmm⟩ : ∃ mm, c._maxCount = mm + 1 := ⟨c._maxCount - 1, by omega⟩
    rw [h5]
    rw [hmm] at hc1len ⊢
    rw [show mm + 1 - 1 = mm from rfl, occ_succ, Nat.add_comm 1 mm]
    congr 1
    · exact gt_set_self (removeTopAux c).2._items (mm + 1) _ (by omega)
    · exact occ_congr fun k hk1 hkn => gt_set_ne _ _ (by omega)
  · rw [h6, gt_set_ne _ _ (by omega), removeTopAux_gt_zero]

end TopNCollection

/-! ### The reachable-state invariant -/

namespace TopNCollection

variable {T : Type}

/-- States reachable by `add` from a freshly constructed collection:
the backing array is exactly the sentinel plus the occupied window,
occupancy is bounded by capacity, the window is heap-ordered, and the
sentinel is intact. -/
def Inv (c : TopNCollection T) : Prop :=
  c._items.length = c._count + 1 ∧ c._count ≤ c._maxCount ∧
  heapUpTo c._items c._count ∧ gt c._items 0 = ⟨none, numberMinValue⟩

theorem addAll_nil (c : TopNCollection T) : addAll c [] = c := rfl

theorem addAll_cons (c : TopNCollection T) (p : T × ℚ) (L : List (T × ℚ)) :
    addAll c (p :: L) = addAll (add c p.1 p.2) L := rfl

theorem Inv_new (m : ℕ) : Inv (new T m) :=
  ⟨rfl, Nat.zero_le m, fun j h2 h0 => absurd (show j ≤ 0 from h0) (by omega), rfl⟩

theorem add_maxCount (c : TopNCollection T) (v : T) (s : ℚ) :
    (add c v s)._maxCount = c._maxCount := by
  by_cases hfull : c._count = c._maxCount
  · by_cases hs : s < (top c).score
    · rw [add_reject c v s hfull hs]
    · rw [add_eq_full c v s hfull hs]
      rfl
  · rw [add_eq_append c v s hfull]
    rfl

theorem add_Inv (c : TopNCollection T) (v : T) (s : ℚ) (hm : 1 ≤ c._maxCount)
    (h : Inv c) : Inv (add c v s) := by
  obtain ⟨hlen, hle, hheap, hsent⟩ := h
  by_cases hfull : c._count = c._maxCount
  · by_cases hs : s < (top c).score
    · rw [add_reject c v s hfull hs]
      exact ⟨hlen, hle, hheap, hsent⟩
    · obtain ⟨h1, h2, h3, h4, _, _, h7⟩ := add_full_spec c v s hlen hheap hfull hm hs
      refine ⟨by rw [h3, h1], by rw [h1, h2], by rw [h1]; exact h4, by rw [h7]; exact hsent⟩
  · obtain ⟨h1, h2, h3, h4, _, h6⟩ := add_append_spec c v s hlen hheap hfull
    refine ⟨by rw [h3, h1], by rw [h1, h2]; omega, by rw [h1]; exact h4,
      by rw [h6]; exact hsent⟩

theorem addAll_Inv : ∀ (L : List (T × ℚ)) (c : TopNCollection T),
    1 ≤ c._maxCount → Inv c →
    Inv (addAll c L) ∧ (addAll c L)._maxCount = c._maxCount := by
  intro L
  induction L with
  | nil => intro c _ h; exact ⟨h, rfl⟩
  | cons p L ih =>
    intro c hm h
    have h2 := add_maxCount c p.1 p.2
    have h3 := ih (add c p.1 p.2) (h2 ▸ hm) (add_Inv c p.1 p.2 hm h)
    rw [addAll_cons]
    exact ⟨h3.1, by rw [h3.2, h2]⟩

/-- Every retained element scores at least the root. -/
theorem top_min_of_Inv (c : TopNCollection T) (h : Inv c) :
    ∀ y ∈ occ c._items c._count, (top c).score ≤ y.score := by
  intro y hy
  obtain ⟨k, hk1, hkn, rfl⟩ := mem_occ.mp hy
  exact heapUpTo_root_min h.2.2.1 k hk1 hkn

theorem top_mem_occ (c : TopNCollection T) (hc : 1 ≤ c._count) :
    top c ∈ occ c._items c._count :=
  mem_occ.mpr ⟨1, le_refl 1, hc, rfl⟩

end TopNCollection

/-! ### `addAll` on a strictly increasing stream -/

namespace TopNCollection

variable {T : Type}

theorem addAll_append_one (c : TopNCollection T) (L : List (T × ℚ)) (p : T × ℚ) :
    addAll c (L ++ [p]) = add (addAll c L) p.1 p.2 := by
  unfold addAll
  rw [List.foldl_append]
  rfl

/-- Feeding a strictly increasing stream: the collection holds exactly
the last `min |L| maxCount` entries (the highest-scoring ones). -/
theorem addAll_sorted_spec (m : ℕ) (hm : 1 ≤ m) :
    ∀ L : List (T × ℚ), List.Pairwise (fun a b => a.2 < b.2) L →
    (addAll (new T m) L)._count = min L.length m ∧
    occ (addAll (new T m) L)._items (addAll (new T m) L)._count
      = ↑((L.drop (L.length - m)).map fun p => (⟨some p.1, p.2⟩ : ScoredValue T)) := by
  intro L
  induction L using List.reverseRecOn with
  | nil =>
    intro _
    refine ⟨by simp [addAll_nil, new], ?_⟩
    rw [addAll_nil]
    show occ (new T m)._items 0 = _
    rw [occ_zero]
    simp
  | append_singleton L p ih =>
    intro hpair
    rw [addAll_append_one]
    obtain ⟨hL, _, hlast⟩ := List.pairwise_append.mp hpair
    obtain ⟨hcnt, hocc⟩ := ih hL
    obtain ⟨hInv, hmax⟩ := addAll_Inv L (new T m) hm (Inv_new m)
    set c := addAll (new T m) L with hc
    have hmax' : c._maxCount = m := hmax
    by_cases hfull : L.length < m
    · have hne : ¬ c._count = c._maxCount := by rw [hmax, hcnt]; omega
      obtain ⟨h1, _, _, _, h5, _⟩ := add_append_spec c p.1 p.2 hInv.1 hInv.2.2.1 hne
      constructor
      · rw [h1, hcnt]
        simp only [List.length_append, List.length_singleton]
        omega
      · rw [h1, h5, hocc,
          show L.length - m = 0 by omega,
          show (L ++ [p]).length - m = 0 by simp; omega,
          List.drop_zero, List.drop_zero, List.map_append, List.map_singleton,
          Multiset.cons_coe, Multiset.coe_eq_coe]
        exact (List.perm_append_singleton _ _).symm
    · have hLm : m ≤ L.length := by omega
      have hcfull : c._count = c._maxCount := by rw [hmax', hcnt]; omega
      have hm' : 1 ≤ c._maxCount := by rw [hmax']; exact hm
      have hWlen : (L.drop (L.length - m)).length = m := by
        simp only [List.length_drop]
        omega
      obtain ⟨w, W', hW⟩ : ∃ w W', L.drop (L.length - m) = w :: W' := by
        cases hWd : L.drop (L.length - m) with
        | nil => rw [hWd] at hWlen; simp at hWlen; omega
        | cons w W' => exact ⟨w, W', rfl⟩
      have hWp : ∀ q ∈ L.drop (L.length - m), q.2 < p.2 := fun q hq =>
        hlast q (List.drop_subset _ _ hq) p (by simp)
      -- the root is the head of the sorted window
      have htopmem : top c ∈ occ c._items c._count := top_mem_occ c (by rw [hcnt]; omega)
      rw [hocc, hW] at htopmem
      obtain ⟨q, hqmem, hqe⟩ :=
        List.mem_map.mp (Multiset.mem_coe.mp htopmem)
      have hminw : (top c).score ≤ w.2 := by
        have hwmem : (⟨some w.1, w.2⟩ : ScoredValue T) ∈ occ c._items c._count := by
          rw [hocc, hW]
          exact Multiset.mem_coe.mpr (List.mem_map.mpr ⟨w, by simp, rfl⟩)
        exact top_min_of_Inv c hInv _ hwmem
      have hWsorted : List.Pairwise (fun a b : T × ℚ => a.2 < b.2) (w :: W') := by
        rw [← hW]
        exact hL.sublist (List.drop_sublist _ _)
      have htopw : top c = ⟨some w.1, w.2⟩ := by
        rcases List.mem_cons.mp hqmem with hq | hq
        · rw [← hqe, hq]
        · exfalso
          have hlt : w.2 < q.2 := (List.pairwise_cons.mp hWsorted).1 q hq
          have hsc : (top c).score = q.2 := by rw [← hqe]
          rw [hsc] at hminw
          exact absurd (lt_of_lt_of_le hlt hminw) (lt_irrefl _)
      have hs : ¬ p.2 < (top c).score := by
        rw [htopw]
        have := hWp w (by rw [hW]; simp)
        simp only [not_lt]
        exact le_of_lt this
      obtain ⟨h1, _, _, _, h5, h6, _⟩ :=
        add_full_spec c p.1 p.2 hInv.1 hInv.2.2.1 hcfull hm' hs
      -- identify the remainder multiset
      have hR : occ (removeTopAux c).2._items (c._maxCount - 1)
          = ↑(W'.map fun q => (⟨some q.1, q.2⟩ : ScoredValue T)) := by
        have h0 : top c ::ₘ occ (removeTopAux c).2._items (c._maxCount - 1)
            = top c ::ₘ ↑(W'.map fun q => (⟨some q.1, q.2⟩ : ScoredValue T)) := by
          rw [← h5, hocc, hW, List.map_cons]
          rw [show ((((⟨some w.1, w.2⟩ : ScoredValue T) ::
              W'.map fun q => (⟨some q.1, q.2⟩ : ScoredValue T)) : List (ScoredValue T))
                : Multiset (ScoredValue T))
            = (⟨some w.1, w.2⟩ : ScoredValue T) ::ₘ
              ↑(W'.map fun q => (⟨some q.1, q.2⟩ : ScoredValue T)) from
            (Multiset.cons_coe _ _).symm]
          rw [htopw]
        exact (Multiset.cons_inj_right _).mp h0
      constructor
      · rw [h1, hmax']
        simp only [List.length_append, List.length_singleton]
        omega
      · rw [h1, h6, hR]
        have hdrop : (L ++ [p]).drop ((L ++ [p]).length - m) = W' ++ [p] := by
          have hd1 : (L ++ [p]).length - m = (L.length - m) + 1 := by simp; omega
          rw [hd1, List.drop_append_of_le_length (by omega)]
          congr 1
          rw [← List.drop_drop 1 (L.length - m) L, hW]
          rfl
        rw [hdrop, List.map_append, List.map_singleton, Multiset.cons_coe,
          Multiset.coe_eq_coe]
        exact (List.perm_append_singleton _ _).symm

end TopNCollection

/-! ### `sortDescending` -/

namespace TopNCollection

variable {T : Type}

theorem removeTopAux_gt_untouched (c : TopNCollection T)
    (hlen : c._count < c._items.length) (hcnt : 1 ≤ c._count) :
    ∀ k, c._count < k → gt (removeTopAux c).2._items k = gt c._items k := by
  intro k hk
  by_cases hc1 : c._count = 1
  · rw [removeTopAux_items_count_one c hc1 hlen]
  · exact removeTopAux_gt_high c (by omega) k (by omega)

theorem removeTop_ok (c : TopNCollection T) (h : ¬ c._count = 0) :
    removeTop c = .ok (removeTopAux c) := by
  unfold removeTop
  rw [if_neg h]

theorem sortLoop_spec (c0 : ℕ) (M : Multiset (ScoredValue T)) (fuel : ℕ) :
    ∀ (s : TopNCollection T),
    s._count ≤ fuel →
    s._items.length = c0 + 1 →
    s._count ≤ c0 →
    heapUpTo s._items s._count →
    (∀ j, s._count + 1 ≤ j → j + 1 ≤ c0 → sc s._items (j + 1) ≤ sc s._items j) →
    (∀ k, s._count < c0 → 1 ≤ k → k ≤ s._count →
      sc s._items (s._count + 1) ≤ sc s._items k) →
    occ s._items s._count + ↑(segL s._items (s._count + 1) (c0 - s._count)) = M →
    ∃ t, sortLoop fuel s s._count = .ok t ∧ t._count = 0 ∧
      t._items.length = c0 + 1 ∧ t._maxCount = s._maxCount ∧
      (∀ j, 1 ≤ j → j + 1 ≤ c0 → sc t._items (j + 1) ≤ sc t._items j) ∧
      ↑(segL t._items 1 c0) = M := by
  induction fuel with
  | zero =>
    intro s hfuel hlen hc0 hheap hsorted hbound hmult
    have h0 : s._count = 0 := by omega
    refine ⟨s, rfl, h0, hlen, rfl, ?_, ?_⟩
    · intro j hj1 hjc
      exact hsorted j (by omega) hjc
    · rw [h0] at hmult
      rw [occ_zero, zero_add] at hmult
      simpa using hmult
  | succ fuel ih =>
    intro s hfuel hlen hc0 hheap hsorted hbound hmult
    by_cases h0 : s._count = 0
    · refine ⟨s, ?_, h0, hlen, rfl, ?_, ?_⟩
      · simp only [sortLoop]
        rw [if_neg (by omega)]
      · intro j hj1 hjc
        exact hsorted j (by omega) hjc
      · rw [h0, occ_zero, zero_add] at hmult
        simpa using hmult
    · have h1 : 1 ≤ s._count := by omega
      -- the state after one loop iteration
      set s2 : TopNCollection T :=
        { (removeTopAux s).2 with
          _items := (removeTopAux s).2._items.set s._count (removeTopAux s).1 } with hs2
      have hs2c : s2._count = s._count - 1 := rfl
      have hs2m : s2._maxCount = s._maxCount := rfl
      have hrt := removeTopAux_occ s (by omega) h1
      have huntouched := removeTopAux_gt_untouched s (by omega) h1
      have hrtlen : (removeTopAux s).2._items.length = c0 + 1 := by
        rw [removeTopAux_length, hlen]
      have hs2len : s2._items.length = c0 + 1 := by
        show ((removeTopAux s).2._items.set _ _).length = c0 + 1
        rw [List.length_set, hrtlen]
      have htop_at : gt s2._items s._count = top s := by
        show gt ((removeTopAux s).2._items.set _ _) _ = _
        rw [gt_set_self _ _ _ (by omega), removeTopAux_fst]
      have hhigh : ∀ k, s._count < k → gt s2._items k = gt s._items k := by
        intro k hk
        show gt ((removeTopAux s).2._items.set _ _) k = _
        rw [gt_set_ne _ _ (by omega), huntouched k hk]
      have hlow : ∀ k, k < s._count → gt s2._items k = gt (removeTopAux s).2._items k := by
        intro k hk
        show gt ((removeTopAux s).2._items.set _ _) k = _
        rw [gt_set_ne _ _ (by omega)]
      have htopmin : ∀ y ∈ occ s._items s._count, (top s).score ≤ y.score := by
        intro y hy
        obtain ⟨k', h1', h2', rfl⟩ := mem_occ.mp hy
        exact heapUpTo_root_min hheap k' h1' h2'
      -- one unfolding of the loop
      have hstep : sortLoop (fuel + 1) s s._count = sortLoop fuel s2 (s._count - 1) := by
        simp only [sortLoop]
        rw [if_pos (by omega), removeTop_ok s h0]
      -- heap property of the shrunk window
      have hheap2 : heapUpTo s2._items (s._count - 1) := by
        have hh := removeTopAux_heap s (by omega) h1 hheap
        rw [removeTopAux_count] at hh
        intro j hj2 hjn
        rw [show sc s2._items (j / 2) = sc (removeTopAux s).2._items (j / 2) from
            congrArg ScoredValue.score (hlow _ (by omega)),
          show sc s2._items j = sc (removeTopAux s).2._items j from
            congrArg ScoredValue.score (hlow _ (by omega))]
        exact hh j hj2 hjn
      -- sortedness of the grown tail
      have hsorted2 : ∀ j, (s._count - 1) + 1 ≤ j → j + 1 ≤ c0 →
          sc s2._items (j + 1) ≤ sc s2._items j := by
        intro j hj hjc
        by_cases hjt : j = s._count
        · rw [hjt]
          rw [show sc s2._items (s._count + 1) = sc s._items (s._count + 1) from
              congrArg ScoredValue.score (hhigh _ (by omega)),
            show sc s2._items s._count = (top s).score from
              congrArg ScoredValue.score htop_at]
          exact hbound 1 (by omega) (le_refl 1) h1
        · have hjgt : s._count < j := by omega
          rw [show sc s2._items (j + 1) = sc s._items (j + 1) from
              congrArg ScoredValue.score (hhigh _ (by omega)),
            show sc s2._items j = sc s._items j from
              congrArg ScoredValue.score (hhigh _ (by omega))]
          exact hsorted j (by omega) hjc
      -- the new boundary element is below the remaining window
      have hbound2 : ∀ k, (s._count - 1) < c0 → 1 ≤ k → k ≤ s._count - 1 →
          sc s2._items ((s._count - 1) + 1) ≤ sc s2._items k := by
        intro k _ hk1 hk2
        rw [show (s._count - 1) + 1 = s._count by omega,
          show sc s2._items s._count = (top s).score from
            congrArg ScoredValue.score htop_at,
          show sc s2._items k = sc (removeTopAux s).2._items k from
            congrArg ScoredValue.score (hlow _ (by omega))]
        apply htopmin
        rw [hrt, removeTopAux_count]
        exact Multiset.mem_cons_of_mem (mem_occ.mpr ⟨k, hk1, hk2, rfl⟩)
      -- the multiset is redistributed, not changed
      have hmult2 : occ s2._items (s._count - 1)
          + ↑(segL s2._items ((s._count - 1) + 1) (c0 - (s._count - 1))) = M := by
        have hocc2 : occ s2._items (s._count - 1)
            = occ (removeTopAux s).2._items (s._count - 1) :=
          occ_congr fun k hk1 hk2 => hlow k (by omega)
        have hseg2 : segL s2._items ((s._count - 1) + 1) (c0 - (s._count - 1))
            = top s :: segL s._items (s._count + 1) (c0 - s._count) := by
          rw [show (s._count - 1) + 1 = s._count by omega,
            show c0 - (s._count - 1) = (c0 - s._count) + 1 by omega,
            segL_succ_front, htop_at]
          congr 1
          exact segL_congr fun k hk hk' => hhigh k (by omega)
        rw [hocc2, hseg2]
        rw [show ((top s :: segL s._items (s._count + 1) (c0 - s._count) :
            List (ScoredValue T)) : Multiset (ScoredValue T))
          = top s ::ₘ ↑(segL s._items (s._count + 1) (c0 - s._count)) from
          (Multiset.cons_coe _ _).symm]
        rw [Multiset.add_cons, ← Multiset.cons_add]
        rw [removeTopAux_count] at hrt
        rw [← hrt]
        exact hmult
      obtain ⟨t, ht, ht0, htlen, htmax, htsorted, htmult⟩ :=
        ih s2 (by rw [hs2c]; omega) hs2len (by rw [hs2c]; omega) (hs2c ▸ hheap2)
          (hs2c ▸ hsorted2) (hs2c ▸ hbound2) (hs2c ▸ hmult2)
      refine ⟨t, ?_, ht0, htlen, by rw [htmax, hs2m], htsorted, htmult⟩
      rw [hstep]
      rw [show s._count - 1 = s2._count from rfl]
      exact ht

end TopNCollection

namespace TopNCollection

variable {T : Type}

/-- `sortDescending` on an invariant-satisfying state succeeds and
produces the same occupancy, descending by score, with `_count`
restored. -/
theorem sortDescending_spec (c : TopNCollection T) (h : Inv c) :
    ∃ c', sortDescending c = .ok c' ∧
      c'._count = c._count ∧
      c'._items.length = c._count + 1 ∧
      (∀ j, 1 ≤ j → j + 1 ≤ c._count → sc c'._items (j + 1) ≤ sc c'._items j) ∧
      occ c'._items c'._count = occ c._items c._count := by
  obtain ⟨hlen, _, hheap, _⟩ := h
  obtain ⟨t, ht, ht0, htlen, _, htsorted, htmult⟩ :=
    sortLoop_spec c._count (occ c._items c._count) c._count c (le_refl _) hlen
      (le_refl _) hheap
      (by intro j hj hjc; exfalso; omega)
      (by intro k hk _ _; exact absurd hk (lt_irrefl _))
      (by rw [Nat.sub_self, segL_zero]; simp)
  refine ⟨{ t with _count := c._count }, ?_, rfl, htlen, htsorted, ?_⟩
  · unfold sortDescending
    rw [ht]
    rfl
  · show (↑(segL t._items 1 c._count) : Multiset (ScoredValue T)) = _
    exact htmult

end TopNCollection

/-! ### The `nearest` scan -/

theorem getD_append_left' {α : Type} (l₁ l₂ : List α) (d : α) {j : ℕ}
    (h : j < l₁.length) : (l₁ ++ l₂).getD j d = l₁.getD j d := by
  simp [List.getD_eq_getElem?_getD, List.getElem?_append_left h]

theorem getD_append_len' {α : Type} (l : List α) (x : α) (d : α) :
    (l ++ [x]).getD l.length d = x := by
  simp [List.getD_eq_getElem?_getD]

namespace VectorizedList

theorem nearestStep_pos {E : Type} (f : E → ℚ) (acc : ℚ × ℤ × ℕ) (e : E)
    (h : acc.1 ≤ f e) :
    nearestStep f acc e = (f e, (acc.2.2 : ℤ), acc.2.2 + 1) := by
  simp only [nearestStep]
  rw [if_pos h]

theorem nearestStep_neg {E : Type} (f : E → ℚ) (acc : ℚ × ℤ × ℕ) (e : E)
    (h : ¬ acc.1 ≤ f e) :
    nearestStep f acc e = (acc.1, acc.2.1, acc.2.2 + 1) := by
  simp only [nearestStep]
  rw [if_neg h]

/-- Full characterization of the `nearest` accumulator scan: the index
counter tracks the length; the running best never drops below
`Number.MIN_VALUE` and dominates every score seen; if every score is
strictly below `Number.MIN_VALUE` nothing ever updates; otherwise the
kept index is the last index attaining the running maximum. -/
theorem nearestStep_foldl_char {E : Type} (f : E → ℚ) :
    ∀ es : List E,
    (es.foldl (nearestStep f) (numberMinValue, -1, 0)).2.2 = es.length ∧
    numberMinValue ≤ (es.foldl (nearestStep f) (numberMinValue, -1, 0)).1 ∧
    (∀ j, j < es.length →
      (es.map f).getD j 0 ≤ (es.foldl (nearestStep f) (numberMinValue, -1, 0)).1) ∧
    ((∀ e ∈ es, f e < numberMinValue) →
      (es.foldl (nearestStep f) (numberMinValue, -1, 0)).1 = numberMinValue ∧
      (es.foldl (nearestStep f) (numberMinValue, -1, 0)).2.1 = -1) ∧
    ((∃ e ∈ es, numberMinValue ≤ f e) →
      ∃ i, i < es.length ∧
        (es.foldl (nearestStep f) (numberMinValue, -1, 0)).2.1 = (i : ℤ) ∧
        (es.foldl (nearestStep f) (numberMinValue, -1, 0)).1 = (es.map f).getD i 0 ∧
        ∀ j, i < j → j < es.length →
          (es.map f).getD j 0
            < (es.foldl (nearestStep f) (numberMinValue, -1, 0)).1) := by
  intro es
  induction es using List.reverseRecOn with
  | nil =>
    refine ⟨rfl, le_refl _, ?_, fun _ => ⟨rfl, rfl⟩, ?_⟩
    · intro j hj
      simp at hj
    · rintro ⟨e, he, _⟩
      exact absurd he (List.not_mem_nil e)
  | append_singleton es e ih =>
    obtain ⟨ihK, ihmv, ihmax, ihall, ihex⟩ := ih
    have hfold : (es ++ [e]).foldl (nearestStep f) (numberMinValue, -1, 0)
        = nearestStep f (es.foldl (nearestStep f) (numberMinValue, -1, 0)) e := by
      rw [List.foldl_append]
      rfl
    rw [hfold]
    by_cases hbe : (es.foldl (nearestStep f) (numberMinValue, -1, 0)).1 ≤ f e
    · rw [nearestStep_pos f _ e hbe]
      refine ⟨by simp [ihK], le_trans ihmv hbe, ?_, ?_, ?_⟩
      · intro j hj
        rw [List.map_append, List.map_singleton]
        by_cases hjlen : j < es.length
        · rw [getD_append_left' _ _ _ (by simpa using hjlen)]
          exact le_trans (ihmax j hjlen) hbe
        · have hjeq : j = es.length := by
            simp only [List.length_append, List.length_singleton] at hj
            omega
          rw [hjeq, show es.length = (es.map f).length by simp, getD_append_len']
      · intro hall
        exfalso
        have hfe : f e < numberMinValue := hall e (by simp)
        exact absurd (lt_of_le_of_lt (le_trans ihmv hbe) hfe) (lt_irrefl _)
      · intro _
        refine ⟨es.length, by simp, by rw [ihK], ?_, ?_⟩
        · rw [List.map_append, List.map_singleton,
            show es.length = (es.map f).length by simp, getD_append_len']
        · intro j hij hjlen
          exfalso
          simp only [List.length_append, List.length_singleton] at hjlen
          omega
    · rw [nearestStep_neg f _ e hbe]
      have hfelt : f e < (es.foldl (nearestStep f) (numberMinValue, -1, 0)).1 :=
        not_le.mp hbe
      refine ⟨by simp [ihK], ihmv, ?_, ?_, ?_⟩
      · intro j hj
        rw [List.map_append, List.map_singleton]
        by_cases hjlen : j < es.length
        · rw [getD_append_left' _ _ _ (by simpa using hjlen)]
          exact ihmax j hjlen
        · have hjeq : j = es.length := by
            simp only [List.length_append, List.length_singleton] at hj
            omega
          rw [hjeq, show es.length = (es.map f).length by simp, getD_append_len']
          exact le_of_lt hfelt
      · intro hall
        exact ihall fun x hx => hall x (by simp [hx])
      · rintro ⟨e', he', hmv'⟩
        by_cases hes : ∃ x ∈ es, numberMinValue ≤ f x
        · obtain ⟨i, hi, hIi, hBi, hstrict⟩ := ihex hes
          refine ⟨i, by simp; omega, hIi, ?_, ?_⟩
          · rw [List.map_append, List.map_singleton,
              getD_append_left' _ _ _ (by simpa using hi)]
            exact hBi
          · intro j hij hjlen
            rw [List.map_append, List.map_singleton]
            by_cases hjlt : j < es.length
            · rw [getD_append_left' _ _ _ (by simpa using hjlt)]
              exact hstrict j hij hjlt
            · have hjeq : j = es.length := by
                simp only [List.length_append, List.length_singleton] at hjlen
                omega
              rw [hjeq, show es.length = (es.map f).length by simp, getD_append_len']
              exact hfelt
        · exfalso
          have hallbelow : ∀ x ∈ es, f x < numberMinValue := by
            intro x hx
            by_contra hcon
            exact hes ⟨x, hx, not_lt.mp hcon⟩
          have hB := (ihall hallbelow).1
          rcases List.mem_append.mp he' with h | h
          · exact hes ⟨e', h, hmv'⟩
          · have he'e : e' = e := by simpa using h
            rw [he'e] at hmv'
            rw [hB] at hfelt
            exact absurd (lt_of_le_of_lt hmv' hfelt) (lt_irrefl _)

end VectorizedList

/-! ### Claim theorems -/

open TopNCollection in
/-- C1: for every `TopNCollection` of capacity `maxCount ≥ 1`, after any
sequence of `add` calls the occupancy `_count` never exceeds `maxCount`
(every point of a run is the end of some prefix `L`); and after adding
`M > maxCount` candidates with strictly increasing distinct scores, the
count equals `maxCount` and the retained (value, score) pairs are
exactly the `maxCount` highest-scoring candidates seen — which, for a
strictly increasing stream, are its last `maxCount` entries. -/
theorem claim_C1_bounded_retention (T : Type) (maxCount : ℕ) (hm : 1 ≤ maxCount) :
    (∀ L : List (T × ℚ),
      (addAll (new T maxCount) L)._count ≤ maxCount) ∧
    (∀ L : List (T × ℚ), List.Pairwise (fun a b => a.2 < b.2) L →
      maxCount < L.length →
      (addAll (new T maxCount) L)._count = maxCount ∧
      occ (addAll (new T maxCount) L)._items maxCount
        = ↑((L.drop (L.length - maxCount)).map
            fun p => (⟨some p.1, p.2⟩ : ScoredValue T))) := by
  constructor
  · intro L
    obtain ⟨hInv, hmax⟩ := addAll_Inv L (new T maxCount) hm (Inv_new maxCount)
    have hb := hInv.2.1
    rw [hmax] at hb
    exact hb
  · intro L hpair hM
    obtain ⟨hcnt, hocc⟩ := addAll_sorted_spec maxCount hm L hpair
    have hc : (addAll (new T maxCount) L)._count = maxCount := by rw [hcnt]; omega
    rw [hc] at hocc
    exact ⟨hc, hocc⟩

open TopNCollection in
/-- Witness for C1 at capacity 2 with the increasing stream
`(0,1), (1,2), (2,3)`: the retained pairs are the top two. -/
theorem claim_C1_witness :
    1 ≤ 2 ∧
    ((addAll (new ℕ 2) [(0, 1), (1, 2), (2, 3)])._count = 2 ∧
      occ (addAll (new ℕ 2) [(0, 1), (1, 2), (2, 3)])._items 2
        = ↑((([((0 : ℕ), (1 : ℚ)), (1, 2), (2, 3)]).drop
              ([((0 : ℕ), (1 : ℚ)), (1, 2), (2, 3)].length - 2)).map
            fun p => (⟨some p.1, p.2⟩ : ScoredValue ℕ))) :=
  ⟨by decide,
    (claim_C1_bounded_retention ℕ 2 (by decide)).2 [(0, 1), (1, 2), (2, 3)]
      (by decide) (by decide)⟩

open TopNCollection in
/-- C2: after any sequence of `add` calls (no `sortDescending`
interleaved) on a collection of capacity `maxCount ≥ 1`, the binary
min-heap property holds: for every occupied position `i ∈ [1, count]`,
the score at `i` is at most the score at `2i` and at `2i+1` whenever
those child positions lie within `[1, count]`. -/
theorem claim_C2_heap_invariant (T : Type) (maxCount : ℕ) (hm : 1 ≤ maxCount)
    (L : List (T × ℚ)) :
    ∀ i, 1 ≤ i → i ≤ (addAll (new T maxCount) L)._count →
      (2 * i ≤ (addAll (new T maxCount) L)._count →
        sc (addAll (new T maxCount) L)._items i
          ≤ sc (addAll (new T maxCount) L)._items (2 * i)) ∧
      (2 * i + 1 ≤ (addAll (new T maxCount) L)._count →
        sc (addAll (new T maxCount) L)._items i
          ≤ sc (addAll (new T maxCount) L)._items (2 * i + 1)) := by
  intro i hi1 hic
  obtain ⟨hInv, _⟩ := addAll_Inv L (new T maxCount) hm (Inv_new maxCount)
  have hheap := hInv.2.2.1
  constructor
  · intro h2i
    have h := hheap (2 * i) (by omega) h2i
    rwa [show 2 * i / 2 = i by omega] at h
  · intro h2i1
    have h := hheap (2 * i + 1) (by omega) h2i1
    rwa [show (2 * i + 1) / 2 = i by omega] at h

open TopNCollection in
/-- Witness for C2 at capacity 2 and the stream `(0,2), (1,1)`. -/
theorem claim_C2_witness :
    1 ≤ 2 ∧
    ∀ i, 1 ≤ i → i ≤ (addAll (new ℕ 2) [(0, 2), (1, 1)])._count →
      (2 * i ≤ (addAll (new ℕ 2) [(0, 2), (1, 1)])._count →
        sc (addAll (new ℕ 2) [(0, 2), (1, 1)])._items i
          ≤ sc (addAll (new ℕ 2) [(0, 2), (1, 1)])._items (2 * i)) ∧
      (2 * i + 1 ≤ (addAll (new ℕ 2) [(0, 2), (1, 1)])._count →
        sc (addAll (new ℕ 2) [(0, 2), (1, 1)])._items i
          ≤ sc (addAll (new ℕ 2) [(0, 2), (1, 1)])._items (2 * i + 1)) :=
  ⟨by decide, claim_C2_heap_invariant ℕ 2 (by decide) [(0, 2), (1, 1)]⟩

open TopNCollection in
/-- C3: for any sequence of adds on a collection of capacity
`maxCount ≥ 1`, `sortDescending` succeeds and yields a state whose
`get(i).score ≥ get(i+1).score` for every valid adjacent pair, whose
multiset of retained (value, score) pairs equals the pre-sort
occupancy, and whose `count` is restored to its pre-sort value. -/
theorem claim_C3_sortDescending (T : Type) (maxCount : ℕ) (hm : 1 ≤ maxCount)
    (L : List (T × ℚ)) :
    ∃ c', sortDescending (addAll (new T maxCount) L) = .ok c' ∧
      c'._count = (addAll (new T maxCount) L)._count ∧
      (∀ i, i + 2 ≤ c'._count → ∃ a b,
        get c' i = some a ∧ get c' (i + 1) = some b ∧ b.score ≤ a.score) ∧
      occ c'._items c'._count
        = occ (addAll (new T maxCount) L)._items
            (addAll (new T maxCount) L)._count := by
  obtain ⟨hInv, _⟩ := addAll_Inv L (new T maxCount) hm (Inv_new maxCount)
  obtain ⟨c', h1, h2, h3, h4, h5⟩ := sortDescending_spec _ hInv
  refine ⟨c', h1, h2, ?_, h5⟩
  intro i hi
  rw [h2] at hi
  refine ⟨gt c'._items (i + 1), gt c'._items (i + 2),
    get?_eq_some_gt _ (by omega), get?_eq_some_gt _ (by omega), ?_⟩
  exact h4 (i + 1) (by omega) (by omega)

open TopNCollection in
/-- Witness for C3 at capacity 2 and the stream `(0,1), (1,3), (2,2)`. -/
theorem claim_C3_witness :
    1 ≤ 2 ∧
    ∃ c', sortDescending (addAll (new ℕ 2) [(0, 1), (1, 3), (2, 2)]) = .ok c' ∧
      c'._count = (addAll (new ℕ 2) [(0, 1), (1, 3), (2, 2)])._count ∧
      (∀ i, i + 2 ≤ c'._count → ∃ a b,
        get c' i = some a ∧ get c' (i + 1) = some b ∧ b.score ≤ a.score) ∧
      occ c'._items c'._count
        = occ (addAll (new ℕ 2) [(0, 1), (1, 3), (2, 2)])._items
            (addAll (new ℕ 2) [(0, 1), (1, 3), (2, 2)])._count :=
  ⟨by decide, claim_C3_sortDescending ℕ 2 (by decide) [(0, 1), (1, 3), (2, 2)]⟩

open TopNCollection in
/-- C4 counterexample: a capacity-1 collection holding `(0, 5)` is at
capacity with minimum score 5; adding `(1, 5)` — a score exactly equal
to the current minimum — changes the membership to `{(1, 5)}`.  The
source rejects only strictly smaller scores (`score < top.score`), so
ties are swapped in, not rejected. -/
theorem claim_C4_counterexample :
    ¬ occ (add (add (new ℕ 1) 0 5) 1 5)._items (add (add (new ℕ 1) 0 5) 1 5)._count
      = occ (add (new ℕ 1) 0 5)._items (add (new ℕ 1) 0 5)._count := by
  decide

open TopNCollection in
/-- C4 (amended): at capacity, adding a candidate whose score is
exactly equal to the current minimum retained score evicts the current
minimum and installs the new candidate in its place (only strictly
smaller scores are rejected), so membership does change whenever the
new pair differs from the evicted one. -/
theorem claim_C4_tie_evicts (T : Type) (maxCount : ℕ) (hm : 1 ≤ maxCount)
    (L : List (T × ℚ)) (v : T) (s : ℚ)
    (hfull : (addAll (new T maxCount) L)._count = maxCount)
    (htie : s = (top (addAll (new T maxCount) L)).score) :
    ∃ rest,
      occ (addAll (new T maxCount) L)._items maxCount
        = top (addAll (new T maxCount) L) ::ₘ rest ∧
      occ (add (addAll (new T maxCount) L) v s)._items
          (add (addAll (new T maxCount) L) v s)._count
        = ⟨some v, s⟩ ::ₘ rest := by
  obtain ⟨hInv, hmax⟩ := addAll_Inv L (new T maxCount) hm (Inv_new maxCount)
  have hmax' : (addAll (new T maxCount) L)._maxCount = maxCount := hmax
  have hfull' : (addAll (new T maxCount) L)._count
      = (addAll (new T maxCount) L)._maxCount := by rw [hmax', hfull]
  have hs : ¬ s < (top (addAll (new T maxCount) L)).score := by rw [htie]; exact lt_irrefl _
  obtain ⟨h1, _, _, _, h5, h6, _⟩ :=
    add_full_spec (addAll (new T maxCount) L) v s hInv.1 hInv.2.2.1 hfull'
      (by rw [hmax']; exact hm) hs
  rw [hfull, hmax'] at h5
  rw [hmax'] at h6
  refine ⟨occ (removeTopAux (addAll (new T maxCount) L)).2._items
      (maxCount - 1), h5, ?_⟩
  rw [h1, hmax']
  exact h6

open TopNCollection in
/-- Witness for the amended C4: capacity 1 holding `(0, 5)`, adding
`(1, 5)`. -/
theorem claim_C4_witness :
    1 ≤ 1 ∧
    (addAll (new ℕ 1) [(0, 5)])._count = 1 ∧
    (5 : ℚ) = (top (addAll (new ℕ 1) [(0, 5)])).score ∧
    ∃ rest,
      occ (addAll (new ℕ 1) [(0, 5)])._items 1
        = top (addAll (new ℕ 1) [(0, 5)]) ::ₘ rest ∧
      occ (add (addAll (new ℕ 1) [(0, 5)]) 1 5)._items
          (add (addAll (new ℕ 1) [(0, 5)]) 1 5)._count
        = ⟨some 1, 5⟩ ::ₘ rest :=
  ⟨by decide, by decide, by decide,
    claim_C4_tie_evicts ℕ 1 (by decide) [(0, 5)] 1 5 (by decide) (by decide)⟩

open TopNCollection in
/-- C5: the source's `clear()` only truncates the backing array to the
sentinel (`this._items.length = 1`) and never resets `_count`.  On a
collection holding one element, after `clear()` the sentinel is
retained and `maxCount` is unchanged as the claim says, but `count`
reports 1, not 0 — the occupancy is not reset. -/
theorem claim_C5_clear_bug :
    (clear (add (new ℕ 3) 0 1))._count = 1 ∧
    (clear (add (new ℕ 3) 0 1))._items = [⟨none, numberMinValue⟩] ∧
    (clear (add (new ℕ 3) 0 1))._maxCount = 3 := by
  exact ⟨rfl, rfl, rfl⟩

set_option maxRecDepth 8192 in
/-- C6 counterexample: a list holding one item whose similarity to the
query is 0.  `searchTopN` with the default threshold
(`Number.MIN_VALUE`, a positive value) leaves the collection untouched
— the pair is *not* fed to it — although feeding it would have changed
the collection. -/
theorem claim_C6_counterexample :
    VectorizedList.searchTopN (fun _ _ => (0 : ℚ)) (⟨[7], [0]⟩ : VectorizedList ℕ ℕ) 0 1
        numberMinValue
      = TopNCollection.new ℕ 1 ∧
    ¬ TopNCollection.add (TopNCollection.new ℕ 1) 7 0 = TopNCollection.new ℕ 1 := by
  decide

theorem foldl_filter_if {T E : Type} (g : E → ℚ) (thr : ℚ) :
    ∀ (zs : List (T × E)) (m : TopNCollection T),
    zs.foldl (fun m p => if thr ≤ g p.2 then m.add p.1 (g p.2) else m) m
      = (zs.filter fun p => decide (thr ≤ g p.2)).foldl
          (fun m p => m.add p.1 (g p.2)) m := by
  intro zs
  induction zs with
  | nil => intro m; rfl
  | cons z zs ih =>
    intro m
    by_cases hz : thr ≤ g z.2
    · rw [List.foldl_cons, if_pos hz, List.filter_cons_of_pos (by simpa using hz),
        List.foldl_cons]
      exact ih _
    · rw [List.foldl_cons, if_neg hz, List.filter_cons_of_neg (by simpa using hz)]
      exact ih _

/-- C6 (amended): with the default score threshold `Number.MIN_VALUE`,
`search` feeds exactly the stored pairs whose similarity is at least
`Number.MIN_VALUE` into the collection: pairs with zero or negative
similarity are filtered out, so the default threshold is *not*
"no filtering". -/
theorem claim_C6_default_threshold (T E : Type) (sim : E → E → ℚ)
    (l : VectorizedList T E) (other : E) (acc : TopNCollection T) :
    VectorizedList.search sim l other acc numberMinValue
      = ((l._items.zip l._embeddings).filter
          fun p => decide (numberMinValue ≤ sim p.2 other)).foldl
          (fun m p => m.add p.1 (sim p.2 other)) acc :=
  foldl_filter_if (fun e => sim e other) numberMinValue (l._items.zip l._embeddings) acc

set_option maxRecDepth 8192 in
/-- C7 counterexample: a non-empty list whose only stored embedding has
similarity 0 to the query.  `nearest` returns `none` (JS `undefined`),
not the maximum-scoring stored item. -/
theorem claim_C7_counterexample :
    VectorizedList.nearest (fun _ _ => (0 : ℚ)) (⟨[42], [0]⟩ : VectorizedList ℕ ℕ) 0
      = none ∧
    ([42] : List ℕ) ≠ [] := by
  decide

/-- C7 (amended): provided some stored embedding has similarity at
least `Number.MIN_VALUE` to the query (in particular the list is
non-empty), `nearest` returns the stored item at the greatest index
attaining the maximum score — ties favor the most-recently-inserted
item because the scan updates on `score >= bestScore`.  When no
similarity reaches `Number.MIN_VALUE` (and in particular on an empty
list) the result is absent instead. -/
theorem claim_C7_nearest_last_argmax (T E : Type) (sim : E → E → ℚ)
    (l : VectorizedList T E) (other : E)
    (hhit : ∃ e ∈ l._embeddings, numberMinValue ≤ sim e other) :
    ∃ i, i < l._embeddings.length ∧
      VectorizedList.nearest sim l other = l._items.get? i ∧
      (∀ j, j < l._embeddings.length →
        (l._embeddings.map fun e => sim e other).getD j 0
          ≤ (l._embeddings.map fun e => sim e other).getD i 0) ∧
      (∀ j, i < j → j < l._embeddings.length →
        (l._embeddings.map fun e => sim e other).getD j 0
          < (l._embeddings.map fun e => sim e other).getD i 0) := by
  obtain ⟨hK, hmv, hmax, hall, hex⟩ :=
    VectorizedList.nearestStep_foldl_char (fun e => sim e other) l._embeddings
  obtain ⟨i, hi, hIi, hBi, hstrict⟩ := hex hhit
  refine ⟨i, hi, ?_, ?_, ?_⟩
  · simp only [VectorizedList.nearest]
    rw [hIi, if_neg (not_lt.mpr (Int.natCast_nonneg i))]
    simp
  · intro j hj
    rw [← hBi]
    exact hmax j hj
  · intro j hij hjl
    have h0 := hstrict j hij hjl
    rwa [hBi] at h0

set_option maxRecDepth 8192 in
/-- Witness for the amended C7: one stored item with similarity 1. -/
theorem claim_C7_witness :
    (∃ e ∈ ([0] : List ℕ), numberMinValue ≤ (fun _ _ => (1 : ℚ)) e 0) ∧
    ∃ i, i < (⟨[42], [0]⟩ : VectorizedList ℕ ℕ)._embeddings.length ∧
      VectorizedList.nearest (fun _ _ => (1 : ℚ)) (⟨[42], [0]⟩ : VectorizedList ℕ ℕ) 0
        = (⟨[42], [0]⟩ : VectorizedList ℕ ℕ)._items.get? i ∧
      (∀ j, j < (⟨[42], [0]⟩ : VectorizedList ℕ ℕ)._embeddings.length →
        ((⟨[42], [0]⟩ : VectorizedList ℕ ℕ)._embeddings.map
            fun e => (fun _ _ => (1 : ℚ)) e 0).getD j 0
          ≤ ((⟨[42], [0]⟩ : VectorizedList ℕ ℕ)._embeddings.map
            fun e => (fun _ _ => (1 : ℚ)) e 0).getD i 0) ∧
      (∀ j, i < j → j < (⟨[42], [0]⟩ : VectorizedList ℕ ℕ)._embeddings.length →
        ((⟨[42], [0]⟩ : VectorizedList ℕ ℕ)._embeddings.map
            fun e => (fun _ _ => (1 : ℚ)) e 0).getD j 0
          < ((⟨[42], [0]⟩ : VectorizedList ℕ ℕ)._embeddings.map
            fun e => (fun _ _ => (1 : ℚ)) e 0).getD i 0) :=
  ⟨by decide,
    claim_C7_nearest_last_argmax ℕ ℕ (fun _ _ => (1 : ℚ))
      (⟨[42], [0]⟩ : VectorizedList ℕ ℕ) 0 (by decide)⟩

open TopNCollection in
/-- C8 counterexample: `sortDescending` on an empty collection does
*not* fail with `EmptyCollection` — the loop guard `_count > 0` keeps
`removeTop` from ever being invoked, so the call returns normally with
the structure unchanged. -/
theorem claim_C8_counterexample :
    sortDescending (new ℕ 3) = .ok (new ℕ 3) := rfl

open TopNCollection in
/-- C8 (amended): on an empty collection, `removeTop` fails with the
`EmptyCollection` condition and the structure is unchanged (the error
is raised before any mutation), while `sortDescending` does not fail:
it returns with the structure unchanged. -/
theorem claim_C8_empty_behavior (T : Type) (c : TopNCollection T)
    (h : c._count = 0) :
    removeTop c = .error () ∧ sortDescending c = .ok c := by
  constructor
  · unfold removeTop
    rw [if_pos h]
  · have hloop : sortLoop c._count c c._count = .ok c := by
      rw [h]
      rfl
    unfold sortDescending
    rw [hloop]
    rfl

open TopNCollection in
/-- Witness for the amended C8 on a fresh capacity-2 collection. -/
theorem claim_C8_witness :
    (new ℕ 2)._count = 0 ∧
    (removeTop (new ℕ 2) = .error () ∧ sortDescending (new ℕ 2) = .ok (new ℕ 2)) :=
  ⟨rfl, claim_C8_empty_behavior ℕ (new ℕ 2) rfl⟩

/-- C9: `normalize` is idempotent — the second call is a no-op because
the `isNormalized` flag is already set — and after `normalize`,
`euclideanLength()` returns exactly `1.0` via the cached fast path on
the flag, for every underlying vector type and every `normalize32` /
`euclideanLength32` kernel. -/
theorem claim_C9_normalize_idempotent (V : Type) (normalize32 : V → V)
    (euclideanLength32 : V → ℚ) (e : Embedding V) :
    Embedding.normalize normalize32 (Embedding.normalize normalize32 e)
      = Embedding.normalize normalize32 e ∧
    Embedding.euclideanLength euclideanLength32 (Embedding.normalize normalize32 e)
      = 1 := by
  unfold Embedding.normalize Embedding.euclideanLength
  by_cases h : e._normalized <;> simp [h]

/-- C10: when every stored embedding's similarity to the query is
strictly below `Number.MIN_VALUE` (for example, zero or negative),
`nearest` returns an absent result even on a non-empty list: the best
index stays `-1` because the accumulator starts at `Number.MIN_VALUE`
and `score >= bestScore` never fires. -/
theorem claim_C10_nearest_undefined (T E : Type) (sim : E → E → ℚ)
    (l : VectorizedList T E) (other : E)
    (hne : l._embeddings ≠ [])
    (hall : ∀ e ∈ l._embeddings, sim e other < numberMinValue) :
    VectorizedList.nearest sim l other = none := by
  obtain ⟨hK, hmv, hmax, hallc, hex⟩ :=
    VectorizedList.nearestStep_foldl_char (fun e => sim e other) l._embeddings
  obtain ⟨hB, hI⟩ := hallc hall
  simp only [VectorizedList.nearest]
  rw [hI, if_pos (by decide : (-1 : ℤ) < 0)]

set_option maxRecDepth 8192 in
/-- Witness for C10: one stored item with similarity 0. -/
theorem claim_C10_witness :
    (⟨[5], [0]⟩ : VectorizedList ℕ ℕ)._embeddings ≠ [] ∧
    (∀ e ∈ (⟨[5], [0]⟩ : VectorizedList ℕ ℕ)._embeddings,
      (fun _ _ => (0 : ℚ)) e 0 < numberMinValue) ∧
    VectorizedList.nearest (fun _ _ => (0 : ℚ)) (⟨[5], [0]⟩ : VectorizedList ℕ ℕ) 0
      = none :=
  ⟨by decide, by decide,
    claim_C10_nearest_undefined ℕ ℕ (fun _ _ => (0 : ℚ))
      (⟨[5], [0]⟩ : VectorizedList ℕ ℕ) 0 (by decide) (by decide)⟩
